import Mathlib

/-!
Verification of the Cloak span-processing and anonymization pipeline.

Texts are modelled as `List Char`; Python slices, `str.strip`, `str.lower`,
`str.upper` and decimal rendering of integers are given explicit executable
models below.  Entity dictionaries are modelled by the `Entity` structure
(the Python key `end` is called `stop` here because `end` is a Lean keyword;
the optional internal `count` key of the merger is an `Option Nat` field).
Randomness (the `random` module and strategy objects) is modelled by explicit
oracle parameters; Python exceptions inside strategy calls are modelled by
`Option` results.
-/

namespace Cloak

/-- Python slice `l[a:b]` for natural indices (Python clamps out-of-range
bounds, which `drop`/`take` also do). -/
def pySlice (l : List Char) (a b : Nat) : List Char := (l.drop a).take (b - a)

/-- ASCII whitespace, as recognised by `str.strip`, `str.split` and the
regex `\S`.  (Unicode whitespace is outside the model.) -/
def isSpaceChar (c : Char) : Bool :=
  c == ' ' || c == '\t' || c == '\n' || c == '\r' || c == '\x0b' || c == '\x0c'

/-- Python `str.strip()`. -/
def pyStrip (l : List Char) : List Char :=
  ((l.dropWhile isSpaceChar).reverse.dropWhile isSpaceChar).reverse

/-- Python `str.lower()` (ASCII model). -/
def pyLower (l : List Char) : List Char := l.map Char.toLower

/-- Python `str.upper()` (ASCII model). -/
def pyUpper (l : List Char) : List Char := l.map Char.toUpper

/-- The decimal digit character of `n % 10`. -/
def digitChar (n : Nat) : Char := Char.ofNat (48 + n % 10)

/-- Decimal rendering, fuel-driven so that it is structural (the fuel
`n + 1` always suffices). Models Python `str(n)` for `n : Nat`. -/
def natToDecAux : Nat → Nat → List Char
  | 0, _ => []
  | fuel + 1, n =>
    if n < 10 then [digitChar n]
    else natToDecAux fuel (n / 10) ++ [digitChar (n % 10)]

/-- Python `str(n)` for a natural number. -/
def natToDec (n : Nat) : List Char := natToDecAux (n + 1) n

/-- Decimal parsing, the left inverse used to prove `natToDec` injective. -/
def decodeDec (l : List Char) : Nat := l.foldl (fun a c => a * 10 + (c.toNat - 48)) 0

/-- Stable insertion used to model Python `sorted` (Timsort is stable; any
stable sort is extensionally the same function). -/
def pyInsert (le : α → α → Bool) (a : α) : List α → List α
  | [] => [a]
  | b :: bs => if le a b then a :: b :: bs else b :: pyInsert le a bs

/-- Stable sort modelling Python `sorted(xs, key=...)` (and, with the
flipped comparison, `reverse=True`). -/
def pySorted (le : α → α → Bool) : List α → List α
  | [] => []
  | x :: xs => pyInsert le x (pySorted le xs)

/-- Lookup in an association list, modelling Python `dict` access. -/
def alookup [DecidableEq α] (k : α) : List (α × β) → Option β
  | [] => none
  | p :: rest => if k = p.1 then some p.2 else alookup k rest

/-- Insertion into an association list (`d[k] = v`); the new binding
shadows any old one, giving last-write-wins lookup. -/
def aset (k : α) (v : β) (m : List (α × β)) : List (α × β) := (k, v) :: m

/-- Python `enumerate(xs, i)`. -/
def withIdx : Nat → List α → List (Nat × α)
  | _, [] => []
  | i, x :: xs => (i, x) :: withIdx (i + 1) xs

/-- Index of the first occurrence of `a` (length of the list when absent). -/
def idxOf' [DecidableEq α] (a : α) : List α → Nat
  | [] => 0
  | x :: xs => if x = a then 0 else idxOf' a xs + 1

/-- Fuel-driven core of `dedupFirst` (structural, so that the kernel can
evaluate it; fuel `l.length` always suffices). -/
def dedupFirstAux [DecidableEq α] : Nat → List α → List α
  | _, [] => []
  | 0, _ :: _ => []
  | fuel + 1, x :: xs => x :: dedupFirstAux fuel (xs.filter (fun y => y ≠ x))

/-- Distinct elements in first-occurrence order; models iterating a Python
set whose elements were inserted in this order (the iteration order of a
Python set is unspecified, and nothing proved below depends on it). -/
def dedupFirst [DecidableEq α] (l : List α) : List α := dedupFirstAux l.length l

/-- An entity span, from `{label, text, start, end, score}` dictionaries.
`stop` is the Python key `end`; `count` models the merger's internal
`count` key (`none` = key absent). -/
structure Entity where
  label : List Char
  text : List Char
  start : Nat
  stop : Nat
  score : ℚ
  count : Option Nat := none
deriving DecidableEq

instance : Inhabited Entity := ⟨⟨[], [], 0, 0, 0, none⟩⟩

/-! Validator: `EntityValidator._entities_overlap`, `_detect_overlaps` and
`resolve_overlaps` (src/utils/entity_validator.py). -/

/-- `EntityValidator._entities_overlap`:
`not (end1 <= start2 or end2 <= start1)`. -/
def entitiesOverlap (e1 e2 : Entity) : Bool :=
  !(e1.stop ≤ e2.start || e2.stop ≤ e1.start)

/-- Inner loop of `_detect_overlaps`: pairs `(i, j)` for `e2` ranging over
the remaining entities at indices `j, j+1, ...`. -/
def overlapsWithFrom (e1 : Entity) (i : Nat) : Nat → List Entity → List (Nat × Nat)
  | _, [] => []
  | j, e2 :: rest =>
    (if entitiesOverlap e1 e2 then [(i, j)] else []) ++ overlapsWithFrom e1 i (j + 1) rest

/-- Outer loop of `_detect_overlaps` starting at index `i`. -/
def detectOverlapsFrom : Nat → List Entity → List (Nat × Nat)
  | _, [] => []
  | i, e1 :: rest => overlapsWithFrom e1 i (i + 1) rest ++ detectOverlapsFrom (i + 1) rest

/-- `EntityValidator._detect_overlaps`: all index pairs `i < j` whose
entities overlap, in lexicographic detection order. -/
def detectOverlaps (es : List Entity) : List (Nat × Nat) := detectOverlapsFrom 0 es

/-- Length `end - start` as in the `longest` strategy (Python `int`
subtraction, hence over `ℤ`). -/
def entLen (e : Entity) : Int := (e.stop : Int) - (e.start : Int)

/-- The per-pair victim choice of `resolve_overlaps`: which of the two
indices of an overlapping pair is added to `to_remove` (an unknown
strategy string falls back to removing the second index). -/
def pickVictim (strategy : String) (i j : Nat) (e1 e2 : Entity) : Nat :=
  if strategy = "highest_confidence" then
    if e2.score > e1.score then i else j
  else if strategy = "longest" then
    if entLen e2 > entLen e1 then i else j
  else if strategy = "first" then j
  else j

/-- The per-pair resolution loop of `resolve_overlaps`: pairs already
touching a removed index are skipped, otherwise one index is added to the
removal set (modelled as a list with membership semantics). -/
def resolveLoop (es : List Entity) (strategy : String) :
    List (Nat × Nat) → List Nat → List Nat
  | [], toRemove => toRemove
  | (i, j) :: rest, toRemove =>
    if i ∈ toRemove ∨ j ∈ toRemove then resolveLoop es strategy rest toRemove
    else resolveLoop es strategy rest
      (pickVictim strategy i j (es.getD i default) (es.getD j default) :: toRemove)

/-- `EntityValidator.resolve_overlaps`. -/
def resolveOverlaps (es : List Entity) (strategy : String) : List Entity :=
  if es = [] then []
  else if detectOverlaps es = [] then es
  else ((withIdx 0 es).filter (fun p =>
      decide (p.1 ∉ resolveLoop es strategy (detectOverlaps es) []))).map Prod.snd

/-- Modelled from the spec (amended wording for the highest-confidence
greedy pass): for each detected pair with neither member already removed,
the strictly lower-scoring member is dropped, and when the two scores are
equal the second member of the pair is dropped (the first is kept). -/
def hcGreedy (es : List Entity) : List (Nat × Nat) → List Nat → List Nat
  | [], toRemove => toRemove
  | (i, j) :: rest, toRemove =>
    if i ∈ toRemove ∨ j ∈ toRemove then hcGreedy es rest toRemove
    else if (es.getD i default).score < (es.getD j default).score then
      hcGreedy es rest (i :: toRemove)
    else if (es.getD j default).score < (es.getD i default).score then
      hcGreedy es rest (j :: toRemove)
    else hcGreedy es rest (j :: toRemove)

/-! Merger: `EntityMerger.merge` (src/utils/merger.py). -/

/-- The merge condition of `EntityMerger.merge` / `can_merge`. -/
def canMergeEnt (maxGap : Nat) (cur next : Entity) : Bool :=
  decide (next.label = cur.label) &&
    (decide (next.start = cur.stop) || decide (next.start ≤ cur.stop + maxGap))

/-- The left-to-right accumulation loop of `EntityMerger.merge`; emitting a
candidate pops the internal `count` key (`count := none`). -/
def mergeLoop (text : List Char) (maxGap : Nat) : Entity → List Entity → List Entity
  | cur, [] => [{ cur with count := none }]
  | cur, next :: rest =>
    if canMergeEnt maxGap cur next then
      let c := cur.count.getD 1
      mergeLoop text maxGap
        { cur with
          text := pyStrip (pySlice text cur.start next.stop)
          stop := next.stop
          score := (cur.score * c + next.score) / (c + 1)
          count := some (c + 1) } rest
    else
      { cur with count := none } :: mergeLoop text maxGap { next with count := some 1 } rest

/-- `EntityMerger.merge`. -/
def merge (maxGap : Nat) (entities : List Entity) (text : List Char) : List Entity :=
  match pySorted (fun a b => a.start ≤ b.start) entities with
  | [] => []
  | e :: rest => mergeLoop text maxGap { e with count := some 1 } rest

/-! Chunker: `chunk_text` and `validate_chunks` (src/extraction/chunker.py). -/

/-- The word spans of `re.finditer(r"\S+", text)`: maximal runs of
non-whitespace characters as `(start, end)` index pairs.  The accumulator
holds the start index of the run currently being scanned. -/
def wordSpansAux : List Char → Nat → Option Nat → List (Nat × Nat)
  | [], _, none => []
  | [], i, some s => [(s, i)]
  | c :: cs, i, none =>
    if isSpaceChar c then wordSpansAux cs (i + 1) none
    else wordSpansAux cs (i + 1) (some i)
  | c :: cs, i, some s =>
    if isSpaceChar c then (s, i) :: wordSpansAux cs (i + 1) none
    else wordSpansAux cs (i + 1) (some s)

/-- All word spans of a text. -/
def wordSpans (text : List Char) : List (Nat × Nat) := wordSpansAux text 0 none

/-- Fuel-driven core of `spanGroups` (structural, so that the kernel can
evaluate it; fuel `l.length` always suffices). -/
def spanGroupsAux (k : Nat) : Nat → List (Nat × Nat) → List ((Nat × Nat) × List (Nat × Nat))
  | _, [] => []
  | 0, _ :: _ => []
  | fuel + 1, x :: xs => (x, xs.take k) :: spanGroupsAux k fuel (xs.drop k)

/-- The grouping `word_spans[i : i + chunk_size]` of the chunking loop;
`k` is `chunk_size - 1`, so each group is its (always present) first span
plus at most `k` further spans. -/
def spanGroups (k : Nat) (l : List (Nat × Nat)) : List ((Nat × Nat) × List (Nat × Nat)) :=
  spanGroupsAux k l.length l

/-- `chunk_text(text, chunk_size)`: each group of up to `chunk_size` word
spans yields the exact substring from its first word's start to its last
word's end, tagged with the start offset. -/
def chunkText (text : List Char) (chunkSize : Nat) : List (List Char × Nat) :=
  if text = [] ∨ pyStrip text = [] then []
  else if wordSpans text = [] then []
  else
    (spanGroups ((if chunkSize = 0 then 600 else chunkSize) - 1) (wordSpans text)).map
      fun g => (pySlice text g.1.1 (g.2.getLastD g.1).2, g.1.1)

/-- `validate_chunks(chunks, original_text)`. -/
def validateChunks (chunks : List (List Char × Nat)) (original : List Char) : Bool :=
  if chunks = [] ∨ original = [] then false
  else chunks.all fun p =>
    decide (p.2 < original.length) &&
    decide (p.2 + p.1.length ≤ original.length) &&
    decide (pySlice original p.2 (p.2 + p.1.length) = p.1)

/-! Parallel dispatch: `extract_entities_for_chunk` and
`extract_entities_in_parallel` (src/extraction/parallel_processor.py).
The per-chunk labeler (`extractor.predict`) is an explicit function
parameter; thread-pool completion order only permutes the concatenated
list before the final sort, so the fork-join run is modelled by the
in-order concatenation. -/

/-- `extract_entities_for_chunk`: run the labeler on one chunk and shift
every span by the chunk's offset. -/
def extractEntitiesForChunk (extractor : List Char → List Entity)
    (chunk : List Char) (offset : Nat) : List Entity :=
  (extractor chunk).map fun e =>
    { e with start := e.start + offset, stop := e.stop + offset }

/-- `extract_entities_in_parallel`. -/
def extractEntitiesInParallel (fullText : List Char)
    (extractor : List Char → List Entity) (chunkSize : Nat) : List Entity :=
  if fullText = [] ∨ pyStrip fullText = [] then []
  else if chunkText fullText chunkSize = [] then []
  else
    pySorted (fun a b => a.start ≤ b.start)
      ((chunkText fullText chunkSize).flatMap fun p =>
        extractEntitiesForChunk extractor p.1 p.2)

/-! Default replacement strategy (src/anonymization/strategies/default_strategy.py).
Calls into `random` are modelled by an oracle of indexed picks; each call
site uses its own indices, so the oracle can realise any sequence of
outcomes the Python code can produce. -/

/-- Oracle for the `random` module: indexed character picks from the three
character classes used by the strategy, picks from uppercase+digits (for
`_generate_code`), and `randint(lo, hi)` (call index, lo, hi). -/
structure RandOracle where
  pickDigit : Nat → Char
  pickUpper : Nat → Char
  pickLower : Nat → Char
  pickUpperDigit : Nat → Char
  randInt : Nat → Nat → Nat → Nat

/-- Python `str.isdigit()` (ASCII model). -/
def strIsDigit (l : List Char) : Bool := !l.isEmpty && l.all Char.isDigit

/-- Python `str.isalpha()` (ASCII model). -/
def strIsAlpha (l : List Char) : Bool := !l.isEmpty && l.all Char.isAlpha

/-- Python `any(char.isalnum() for char in text)` (ASCII model). -/
def strHasAlnum (l : List Char) : Bool := l.any Char.isAlphanum

/-- The bracketed `[<LABEL>_REDACTED]` placeholder. -/
def placeholderFor (label : List Char) : List Char :=
  '[' :: (pyUpper label ++ "_REDACTED]".toList)

/-- `DefaultReplacementStrategy._generate_generic_replacement`. -/
def generateGenericReplacement (r : RandOracle) (originalText label : List Char) :
    List Char :=
  if strIsDigit originalText then
    (List.range originalText.length).map r.pickDigit
  else if strIsAlpha originalText then
    (withIdx 0 originalText).map fun p =>
      if p.2.isUpper then r.pickUpper p.1
      else if p.2.isLower then r.pickLower p.1
      else p.2
  else if strHasAlnum originalText then
    (withIdx 0 originalText).map fun p =>
      if p.2.isDigit then r.pickDigit p.1
      else if p.2.isAlpha then
        (if p.2.isUpper then r.pickUpper p.1 else r.pickLower p.1)
      else p.2
  else placeholderFor label

/-- `DefaultReplacementStrategy._generate_email`. -/
def genEmail (r : RandOracle) : List Char :=
  let domains := ["example.com".toList, "test.org".toList, "sample.net".toList, "demo.co".toList]
  let username := (List.range (r.randInt 0 5 10)).map r.pickLower
  username ++ ('@' :: domains.getD (r.randInt 1 0 3) ("example.com".toList))

/-- `DefaultReplacementStrategy._generate_phone`. -/
def genPhone (r : RandOracle) : List Char :=
  '(' :: (natToDec (r.randInt 0 200 999) ++ (") ".toList ++
    (natToDec (r.randInt 1 200 999) ++ ('-' :: natToDec (r.randInt 2 1000 9999)))))

/-- `DefaultReplacementStrategy._generate_ssn`. -/
def genSSN (r : RandOracle) : List Char :=
  natToDec (r.randInt 0 100 999) ++ ('-' :: (natToDec (r.randInt 1 10 99) ++
    ('-' :: natToDec (r.randInt 2 1000 9999))))

/-- `DefaultReplacementStrategy._generate_id`. -/
def genId (r : RandOracle) : List Char :=
  (List.range 2).map r.pickUpper ++ (List.range 6).map r.pickDigit

/-- `DefaultReplacementStrategy._generate_number`. -/
def genNumber (r : RandOracle) : List Char := natToDec (r.randInt 0 100000 999999)

/-- `DefaultReplacementStrategy._generate_code`. -/
def genCode (r : RandOracle) : List Char := (List.range 8).map r.pickUpperDigit

/-- `DefaultReplacementStrategy._generate_username`. -/
def genUsername (r : RandOracle) : List Char :=
  let prefixes := ["user".toList, "demo".toList, "test".toList, "sample".toList]
  prefixes.getD (r.randInt 0 0 3) ("user".toList) ++ natToDec (r.randInt 1 100 9999)

/-- The `replacement_patterns` dispatch of `DefaultReplacementStrategy`:
`some` for the seven specialised labels, `none` otherwise. -/
def patternGen (r : RandOracle) (label : List Char) : Option (List Char) :=
  if label = "email".toList then some (genEmail r)
  else if label = "phone".toList then some (genPhone r)
  else if label = "ssn".toList then some (genSSN r)
  else if label = "id".toList then some (genId r)
  else if label = "number".toList then some (genNumber r)
  else if label = "code".toList then some (genCode r)
  else if label = "username".toList then some (genUsername r)
  else none

/-- The seven specialised pattern labels. -/
def patternLabels : List (List Char) :=
  ["email".toList, "phone".toList, "ssn".toList, "id".toList,
   "number".toList, "code".toList, "username".toList]

/-- `DefaultReplacementStrategy.get_replacement`. -/
def defaultGetReplacement (r : RandOracle) (e : Entity) : List Char :=
  match patternGen r (pyLower e.label) with
  | some v => v
  | none => generateGenericReplacement r e.text (pyLower e.label)

/-! Redactor: `EntityRedactor` (src/anonymization/redactor.py). -/

/-- A `RedactionDetail` record. -/
structure RedactionDetail where
  label : List Char
  original : List Char
  placeholder : List Char
  start : Nat
  stop : Nat
  score : ℚ
  redaction_id : List Char
deriving DecidableEq

/-- Per-(upper-cased)-label sets of already-used id strings
(`used_ids_per_label`, a `defaultdict(set)`; sets are association-listed
with membership semantics). -/
abbrev UsedIds := List (List Char × List (List Char))

/-- The instance state of an `EntityRedactor`. -/
structure RedactorState where
  entity_id_map : List ((List Char × List Char) × List Char)
  used_ids_per_label : UsedIds
deriving DecidableEq

/-- A fresh `EntityRedactor()` instance. -/
def freshRedactor : RedactorState := ⟨[], []⟩

/-- The candidate search of `_generate_unique_id`: starting from 1, take
the first id whose decimal string is not yet used.  Fuel
`used.length + 1` is always enough, which the lemmas below prove. -/
def genLoop (used : List (List Char)) : Nat → Nat → Nat
  | 0, c => c
  | fuel + 1, c => if natToDec c ∈ used then genLoop used fuel (c + 1) else c

/-- `EntityRedactor._generate_unique_id` (the caller passes the upper-cased
label): returns the id string and the updated used-id sets. -/
def generateUniqueId (label : List Char) (u : UsedIds) : List Char × UsedIds :=
  let used := (alookup label u).getD []
  let cid := genLoop used (used.length + 1) 1
  (natToDec cid, aset label (natToDec cid :: used) u)

/-- The `(label, text)` consistency key of an entity (raw label, as in
`_build_entity_id_map` and `redact`). -/
def keyOf (e : Entity) : List Char × List Char := (e.label, e.text)

/-- `EntityRedactor._build_entity_id_map`: first occurrence of each
`(label, text)` key allocates a fresh id for the upper-cased label. -/
def buildMapLoop : List Entity → List ((List Char × List Char) × List Char) → UsedIds →
    List ((List Char × List Char) × List Char) × UsedIds
  | [], m, u => (m, u)
  | e :: rest, m, u =>
    match alookup (keyOf e) m with
    | some _ => buildMapLoop rest m u
    | none =>
      let p := generateUniqueId (pyUpper e.label) u
      buildMapLoop rest (aset (keyOf e) p.1 m) p.2

/-- The distinct consistency keys of an entity list in first-occurrence
order (`done` accumulates the keys already seen). -/
def newKeys (done : List (List Char × List Char)) :
    List Entity → List (List Char × List Char)
  | [] => []
  | e :: rest =>
    if keyOf e ∈ done then newKeys done rest
    else keyOf e :: newKeys (done ++ [keyOf e]) rest

/-- A placeholder format template, modelling the `str.format` call on
`"...{id}...{label}...{count}..."` templates. -/
inductive FmtPiece where
  | lit (s : List Char)
  | fid
  | flabel
  | fcount
deriving DecidableEq

/-- Render a template with the given id and label (`{count}` is filled
with the id, exactly as `redact` passes `count=redaction_id`). -/
def renderFmt (fmt : List FmtPiece) (rid label : List Char) : List Char :=
  fmt.flatMap fun p =>
    match p with
    | .lit s => s
    | .fid => rid
    | .flabel => label
    | .fcount => rid

/-- The default format `#{id}_{label}_REDACTED`. -/
def defaultFormat : List FmtPiece :=
  [.lit ['#'], .fid, .lit ['_'], .flabel, .lit ("_REDACTED".toList)]

/-- Intermediate state of the redaction loop: working text, details in
processing order, re-identification map, used-id sets. -/
structure RedactAccum where
  text : List Char
  details : List RedactionDetail
  reIdMap : List (List Char × List Char)
  used : UsedIds
deriving DecidableEq

/-- One iteration of the entity loop in `redact`.  A missing consistency
key would raise `KeyError` in Python, caught by the per-entity handler, so
that entity is skipped (`none` branch). -/
def redactStep (fmt : List FmtPiece) (numbered consistent : Bool)
    (entityToId : List ((List Char × List Char) × List Char))
    (acc : RedactAccum) (e : Entity) : RedactAccum :=
  let label := pyUpper e.label
  let idAndUsed : Option ((List Char × List Char) × UsedIds) :=
    if numbered then
      if consistent then
        match alookup (keyOf e) entityToId with
        | none => none
        | some rid => some ((rid, renderFmt fmt rid label), acc.used)
      else
        let p := generateUniqueId label acc.used
        some ((p.1, renderFmt fmt p.1 label), p.2)
    else
      some ((label ++ "_STATIC".toList, label ++ "_REDACTED".toList), acc.used)
  match idAndUsed with
  | none => acc
  | some ((rid, placeholder), used') =>
    { text := acc.text.take e.start ++ placeholder ++ acc.text.drop e.stop
      details := acc.details ++
        [⟨label, e.text, placeholder, e.start, e.stop, e.score, rid⟩]
      reIdMap := aset placeholder e.text acc.reIdMap
      used := used' }

/-- The result dictionary of `EntityRedactor.redact`. -/
structure RedactResult where
  anonymized_text : List Char
  replacements : List RedactionDetail
  entities_processed : Nat
  redactions_applied : Nat
  re_identification_map : List (List Char × List Char)
deriving DecidableEq

/-- `EntityRedactor.redact`, returning the result and the updated instance
state.  Note `redact` reads `self.used_ids_per_label` (through
`_generate_unique_id`) but never reads `self.entity_id_map`. -/
def redact (st : RedactorState) (text : List Char) (entities : List Entity)
    (numbered : Bool) (fmt : List FmtPiece) (consistent : Bool) :
    RedactResult × RedactorState :=
  if entities = [] then (⟨text, [], 0, 0, []⟩, st)
  else
    let sortedEntities := pySorted (fun a b => b.start ≤ a.start) entities
    let built :=
      if numbered ∧ consistent then buildMapLoop entities [] st.used_ids_per_label
      else ([], st.used_ids_per_label)
    let finalAcc := sortedEntities.foldl (redactStep fmt numbered consistent built.1)
      ⟨text, [], [], built.2⟩
    (⟨finalAcc.text,
      pySorted (fun a b => a.start ≤ b.start) finalAcc.details,
      entities.length, finalAcc.details.length, finalAcc.reIdMap⟩,
     ⟨st.entity_id_map, finalAcc.used⟩)

/-- `EntityRedactor.batch_redact` with the `numbered`/`consistent_ids`
keyword arguments.  Pre-generates ids for every distinct
`(label, text)` key, then redacts each text with `self.entity_id_map`
temporarily overridden by the global map (which `redact` never reads) and
restored afterwards.  A length mismatch raises `ValueError` (`none`). -/
def batchRedact (st : RedactorState) (texts : List (List Char))
    (allEntities : List (List Entity)) (numbered : Bool) (fmt : List FmtPiece)
    (consistent : Bool) : Option (List RedactResult × RedactorState) :=
  if texts.length ≠ allEntities.length then none
  else
    let allKeys := dedupFirst (allEntities.flatMap fun es => es.map keyOf)
    let pre := allKeys.foldl
      (fun (acc : List ((List Char × List Char) × List Char) × UsedIds) k =>
        let p := generateUniqueId (pyUpper k.1) acc.2
        (aset k p.1 acc.1, p.2))
      ([], st.used_ids_per_label)
    let step := fun (acc : List RedactResult × RedactorState) (p : List Char × List Entity) =>
      let oldMap := acc.2.entity_id_map
      let overridden : RedactorState := ⟨pre.1, acc.2.used_ids_per_label⟩
      let r := redact overridden p.1 p.2 numbered fmt consistent
      (acc.1 ++ [r.1], ⟨oldMap, r.2.used_ids_per_label⟩)
    some ((texts.zip allEntities).foldl step ([], ⟨st.entity_id_map, pre.2⟩))

/-! Replacer: `EntityReplacer` (src/anonymization/replacer.py).  Concrete
strategy objects (Faker, country, date, default) behave randomly and may
raise; they are modelled as state-threading functions returning
`Option` (with `none` for a raised exception), over an arbitrary
randomness state `σ`. -/

/-- A `ReplacementDetail` record. -/
structure ReplacementDetail where
  label : List Char
  original : List Char
  replacement : List Char
  start : Nat
  stop : Nat
  score : ℚ
  strategy_used : List Char
deriving DecidableEq

/-- A replacement strategy object: `can_handle(label)` and
`get_replacement(entity)`, the latter threading the randomness state and
returning `none` when it raises. -/
structure Strategy (σ : Type) where
  can_handle : List Char → Bool
  get_replacement : Entity → σ → Option (List Char) × σ

/-- The `self.strategies` dict built by `_init_strategies`; `faker` is
`None` when the Faker package is unavailable. -/
structure StrategyTable (σ : Type) where
  faker : Option (Strategy σ)
  country : Strategy σ
  date : Strategy σ
  dflt : Strategy σ

/-- `self.strategies.get(name)`. -/
def getStrategy (tbl : StrategyTable σ) (name : List Char) : Option (Strategy σ) :=
  if name = "faker".toList then tbl.faker
  else if name = "country".toList then some tbl.country
  else if name = "date".toList then some tbl.date
  else if name = "default".toList then some tbl.dflt
  else none

/-- `self.strategy_mapping.get(label, ['faker', 'default'])`. -/
def strategyMapping (label : List Char) : List (List Char) :=
  if label = "person".toList then ["faker".toList, "default".toList]
  else if label = "location".toList then ["country".toList, "faker".toList, "default".toList]
  else if label = "date".toList then ["date".toList, "faker".toList, "default".toList]
  else if label = "organization".toList then ["faker".toList, "default".toList]
  else if label = "company".toList then ["faker".toList, "default".toList]
  else if label = "email".toList then ["faker".toList, "default".toList]
  else if label = "phone".toList then ["faker".toList, "default".toList]
  else if label = "address".toList then ["faker".toList, "default".toList]
  else if label = "age".toList then ["faker".toList, "default".toList]
  else if label = "nationality".toList then ["country".toList, "default".toList]
  else if label = "country".toList then ["country".toList, "default".toList]
  else ["faker".toList, "default".toList]

/-- The consistency cache `self.replacement_cache`:
`(label, original_text) -> (replacement, strategy_name)`. -/
abbrev ReplCache := List ((List Char × List Char) × (List Char × List Char))

/-- The strategy loop of `_get_replacement`: try the named strategies in
order; a candidate succeeds only if it exists, declares it can handle the
label, does not raise, and returns a non-empty value different from the
original text. -/
def tryStrategies (tbl : StrategyTable σ) (label : List Char) (e : Entity) :
    List (List Char) → σ → Option (List Char × List Char) × σ
  | [], s => (none, s)
  | name :: rest, s =>
    match getStrategy tbl name with
    | none => tryStrategies tbl label e rest s
    | some strat =>
      if strat.can_handle label then
        match strat.get_replacement e s with
        | (some r, s') =>
          if r ≠ [] ∧ r ≠ e.text then (some (r, name), s')
          else tryStrategies tbl label e rest s'
        | (none, s') => tryStrategies tbl label e rest s'
      else tryStrategies tbl label e rest s

/-- The non-cached part of `_get_replacement`: the strategy loop, then the
unconditional default fallback (whose result is cached even when unusable);
an exception in the default fallback returns `(original, 'none')`
uncached. -/
def getReplacementCore (tbl : StrategyTable σ) (consistency : Bool)
    (custom : Option (List Char)) (label : List Char) (e : Entity)
    (cache : ReplCache) (s : σ) : (List Char × List Char) × ReplCache × σ :=
  let names := match custom with
    | some n => [n]
    | none => strategyMapping label
  match tryStrategies tbl label e names s with
  | (some (r, name), s') =>
    ((r, name), (if consistency then aset (label, e.text) (r, name) cache else cache), s')
  | (none, s') =>
    match tbl.dflt.get_replacement e s' with
    | (some r, s'') =>
      ((r, "default".toList),
       (if consistency then aset (label, e.text) (r, "default".toList) cache else cache), s'')
    | (none, s'') => ((e.text, "none".toList), cache, s'')

/-- `EntityReplacer._get_replacement`, consulting the consistency cache
first. -/
def getReplacement (tbl : StrategyTable σ) (consistency : Bool)
    (custom : Option (List Char)) (e : Entity) (cache : ReplCache) (s : σ) :
    (List Char × List Char) × ReplCache × σ :=
  let label := pyLower e.label
  if consistency then
    match alookup (label, e.text) cache with
    | some rv => ((rv.1, rv.2 ++ "_cached".toList), cache, s)
    | none => getReplacementCore tbl consistency custom label e cache s
  else getReplacementCore tbl consistency custom label e cache s

/-- Intermediate state of the replacement loop. -/
structure ReplaceAccum (σ : Type) where
  text : List Char
  details : List ReplacementDetail
  rmap : List (List Char × List Char)
  cache : ReplCache
  rng : σ

/-- One iteration of the entity loop in `EntityReplacer.replace`: a
replacement that is empty or equal to the original text is not applied. -/
def replaceStep (tbl : StrategyTable σ) (consistency : Bool)
    (customMap : List (List Char × List Char)) (acc : ReplaceAccum σ)
    (e : Entity) : ReplaceAccum σ :=
  let label := pyLower e.label
  let res := getReplacement tbl consistency (alookup label customMap) e acc.cache acc.rng
  let r := res.1.1
  if r ≠ [] ∧ r ≠ e.text then
    { text := acc.text.take e.start ++ r ++ acc.text.drop e.stop
      details := acc.details ++
        [⟨label, e.text, r, e.start, e.stop, e.score, res.1.2⟩]
      rmap := aset e.text r acc.rmap
      cache := res.2.1
      rng := res.2.2 }
  else
    { acc with cache := res.2.1, rng := res.2.2 }

/-- The result dictionary of `EntityReplacer.replace`, together with the
updated instance cache and randomness state. -/
structure ReplaceResult (σ : Type) where
  anonymized_text : List Char
  replacements : List ReplacementDetail
  entities_processed : Nat
  replacements_applied : Nat
  replacement_map : List (List Char × List Char)
  cache : ReplCache
  rng : σ

/-- `EntityReplacer.replace`. -/
def replace (tbl : StrategyTable σ) (cache0 : ReplCache) (rng0 : σ)
    (text : List Char) (entities : List Entity) (consistency : Bool)
    (customMap : List (List Char × List Char)) : ReplaceResult σ :=
  if entities = [] then ⟨text, [], 0, 0, [], cache0, rng0⟩
  else
    let sortedEntities := pySorted (fun a b => b.start ≤ a.start) entities
    let finalAcc := sortedEntities.foldl (replaceStep tbl consistency customMap)
      ⟨text, [], [], cache0, rng0⟩
    ⟨finalAcc.text,
     pySorted (fun a b => a.start ≤ b.start) finalAcc.details,
     entities.length, finalAcc.details.length, finalAcc.rmap,
     finalAcc.cache, finalAcc.rng⟩

/-- Well-formedness of a span list: starts bounded below by `lo`, each
span non-empty, ends bounded above by `hi`, consecutive spans
non-decreasing (each span starts no earlier than the previous end).  The
word spans of a text satisfy this with `lo = 0`, `hi = text.length`. -/
def ChainBnd : Nat → Nat → List (Nat × Nat) → Prop
  | _, _, [] => True
  | lo, hi, p :: rest => lo ≤ p.1 ∧ p.1 < p.2 ∧ p.2 ≤ hi ∧ ChainBnd p.2 hi rest

/-! Concrete instances used to evaluate the definitions on explicit
inputs. -/

/-- Two equal-score, equal-span entities for the overlap tie-break. -/
def tieEnt1 : Entity := ⟨"a".toList, "x".toList, 0, 5, 1, none⟩

/-- Second entity of the tie-break pair. -/
def tieEnt2 : Entity := ⟨"b".toList, "y".toList, 0, 5, 1, none⟩

/-- A sample text for the chunking instances. -/
def sampleText : List Char := "ab cd".toList

/-- A deterministic sample labeler for the parallel-dispatch instance:
finds the single-character span at index 1 of the chunk it is given. -/
def sampleExtractor (chunk : List Char) : List Entity :=
  if chunk = "ab".toList then [⟨"letter".toList, "b".toList, 1, 2, 1, none⟩]
  else if chunk = "cd".toList then [⟨"letter".toList, "d".toList, 1, 2, 1, none⟩]
  else []

/-- A deterministic oracle realising one possible sequence of `random`
outcomes: the lowest value of each range, `'0'`, `'A'`, `'a'`. -/
def sampleOracle : RandOracle :=
  ⟨fun _ => '0', fun _ => 'A', fun _ => 'a', fun _ => 'A', fun _ lo _ => lo⟩

/-- A one-digit phone-labelled entity: its label has a specialised pattern
generator, so the generic structure-preserving path is not taken. -/
def phoneEnt : Entity := ⟨"phone".toList, "5".toList, 0, 1, 1, none⟩

/-- A mixed-content entity for the generic default-replacement path. -/
def genericEnt : Entity := ⟨"person".toList, "Ab3-".toList, 0, 4, 1, none⟩

/-- The text of the batch-redaction failing input. -/
def johnText : List Char := "John".toList

/-- The entity occurring in both texts of the batch-redaction failing
input. -/
def johnEnt : Entity := ⟨"person".toList, "John".toList, 0, 4, 1, none⟩

/-- A second occurrence of the same person at another position. -/
def johnEnt2 : Entity := ⟨"person".toList, "John".toList, 10, 14, 1, none⟩

/-- A distinct person sharing the label. -/
def janeEnt : Entity := ⟨"person".toList, "Jane".toList, 20, 24, 1, none⟩

/-- Entity list for the redaction-id instance. -/
def idEntities : List Entity := [johnEnt, johnEnt2, janeEnt]

/-- Text for the redaction/replacement instances. -/
def idText : List Char := "John Smith John Smith Jane".toList

/-- A strategy that always raises (its `get_replacement` returns `none`). -/
def failingStrategy : Strategy Unit := ⟨fun _ => false, fun _ u => (none, u)⟩

/-- A Faker-style strategy that always proposes the same name. -/
def constStrategy : Strategy Unit := ⟨fun _ => true, fun _ u => (some ("Xx".toList), u)⟩

/-- The default strategy object, driven by `sampleOracle`. -/
def sampleDefaultStrategy : Strategy Unit :=
  ⟨fun _ => true, fun e u => (some (defaultGetReplacement sampleOracle e), u)⟩

/-- A strategy table with a deterministic Faker. -/
def sampleTable : StrategyTable Unit :=
  ⟨some constStrategy, failingStrategy, failingStrategy, sampleDefaultStrategy⟩

/-- A strategy table of an instance without the Faker package
(`FAKER_AVAILABLE = False`, so `strategies['faker'] = None`). -/
def noFakerTable : StrategyTable Unit :=
  ⟨none, failingStrategy, failingStrategy, sampleDefaultStrategy⟩

/-- A one-letter person entity; the default strategy's random letter can
legitimately coincide with the original text. -/
def tinyEnt : Entity := ⟨"person".toList, "a".toList, 0, 1, 1, none⟩

/-- Text for the skipped-replacement instance. -/
def tinyText : List Char := "a!".toList

/-- Entities for the replacement-consistency instance (same
`(lower label, text)` key at two positions, labels differing in case). -/
def replEntities : List Entity :=
  [⟨"PERSON".toList, "John".toList, 0, 4, 1, none⟩,
   ⟨"person".toList, "John".toList, 11, 15, 1, none⟩]

/-- The per-character structure-preservation property of the generic
default replacement: digits map to digits, letters to letters of the same
case, all other characters are unchanged. -/
def CharShape (c1 c2 : Char) : Prop :=
  (c1.isDigit = true → c2.isDigit = true) ∧
  (c1.isUpper = true → c2.isUpper = true) ∧
  (c1.isLower = true → c2.isLower = true) ∧
  (c1.isAlphanum = false → c2 = c1)

/-- The number of distinct consistency keys with the given upper-cased
label among `done` (the keys already allocated, in order). -/
def cntFor (done : List (List Char × List Char)) (L : List Char) : Nat :=
  (done.filter (fun k => pyUpper k.1 = L)).length

/-- The position of a key among the already-allocated keys sharing its
upper-cased label. -/
def idxSame (done : List (List Char × List Char)) (k : List Char × List Char) : Nat :=
  idxOf' k (done.filter (fun k' => pyUpper k'.1 = pyUpper k.1))

/-! Preliminary lemmas. -/

theorem pyInsert_perm (le : α → α → Bool) (a : α) (l : List α) :
    (pyInsert le a l).Perm (a :: l) := by
  induction l with
  | nil => simp [pyInsert]
  | cons b bs ih =>
    simp only [pyInsert]
    split
    · exact List.Perm.refl _
    · exact ((ih.cons b).trans (List.Perm.swap a b bs))

theorem pySorted_perm (le : α → α → Bool) (l : List α) :
    (pySorted le l).Perm l := by
  induction l with
  | nil => simp [pySorted]
  | cons x xs ih =>
    exact (pyInsert_perm le x (pySorted le xs)).trans (ih.cons x)

theorem mem_pySorted (le : α → α → Bool) (l : List α) (a : α) :
    a ∈ pySorted le l ↔ a ∈ l :=
  (pySorted_perm le l).mem_iff

theorem alookup_aset_self [DecidableEq α] (k : α) (v : β) (m : List (α × β)) :
    alookup k (aset k v m) = some v := by
  simp [alookup, aset]

theorem alookup_aset_ne [DecidableEq α] {k k' : α} (v : β) (m : List (α × β))
    (h : k' ≠ k) : alookup k' (aset k v m) = alookup k' m := by
  simp [alookup, aset, h]

theorem decodeDec_append_one (l : List Char) (c : Char) :
    decodeDec (l ++ [c]) = decodeDec l * 10 + (c.toNat - 48) := by
  simp [decodeDec, List.foldl_append]

theorem digitChar_toNat (n : Nat) : (digitChar n).toNat = 48 + n % 10 := by
  have h : n % 10 < 10 := Nat.mod_lt _ (by norm_num)
  unfold digitChar
  interval_cases h : n % 10 <;> simp [h]

theorem decodeDec_natToDecAux (fuel : Nat) :
    ∀ n, n < 10 ^ fuel → decodeDec (natToDecAux fuel n) = n := by
  induction fuel with
  | zero =>
    intro n hn
    interval_cases n
    simp [natToDecAux, decodeDec]
  | succ fuel ih =>
    intro n hn
    by_cases h : n < 10
    · simp [natToDecAux, h, decodeDec, digitChar_toNat, Nat.mod_eq_of_lt h]
    · have hdiv : n / 10 < 10 ^ fuel := by
        rw [Nat.div_lt_iff_lt_mul (by norm_num)]
        calc n < 10 ^ (fuel + 1) := hn
        _ = 10 ^ fuel * 10 := by ring
      simp only [natToDecAux, h, if_false, decodeDec_append_one, ih _ hdiv,
        digitChar_toNat]
      omega

theorem decodeDec_natToDec (n : Nat) : decodeDec (natToDec n) = n := by
  have h1 : n < 10 ^ n := Nat.lt_pow_self (by norm_num) n
  have h2 : (10 : Nat) ^ n ≤ 10 ^ (n + 1) :=
    Nat.pow_le_pow_right (by norm_num) (Nat.le_succ n)
  exact decodeDec_natToDecAux (n + 1) n (lt_of_lt_of_le h1 h2)

theorem natToDec_injective : Function.Injective natToDec := by
  intro m n h
  have := decodeDec_natToDec m
  rw [h, decodeDec_natToDec] at this
  exact this.symm

theorem natToDec_ne_nil (n : Nat) : natToDec n ≠ [] := by
  unfold natToDec natToDecAux
  by_cases h : n < 10 <;> simp [h]

theorem withIdx_map_snd (l : List α) : ∀ k, (withIdx k l).map Prod.snd = l := by
  induction l with
  | nil => intro k; rfl
  | cons x xs ih => intro k; simp [withIdx, ih]

theorem mem_withIdx (l : List α) :
    ∀ k p, p ∈ withIdx k l → ∃ m, p.1 = k + m ∧ l[m]? = some p.2 := by
  induction l with
  | nil => intro k p h; cases h
  | cons x xs ih =>
    intro k p h
    rcases List.mem_cons.1 h with h | h
    · exact ⟨0, by simp [h], by simp [h]⟩
    · obtain ⟨m, hm, hg⟩ := ih (k + 1) p h
      exact ⟨m + 1, by omega, by simpa using hg⟩

theorem pairwise_withIdx (l : List α) :
    ∀ k, (withIdx k l).Pairwise (fun a b => a.1 < b.1) := by
  induction l with
  | nil => intro k; simp [withIdx]
  | cons x xs ih =>
    intro k
    refine List.Pairwise.cons ?_ (ih (k + 1))
    intro p hp
    obtain ⟨m, hm, -⟩ := mem_withIdx xs (k + 1) p hp
    simp only
    omega

theorem length_pySlice (l : List Char) (a b : Nat) :
    (pySlice l a b).length = min (b - a) (l.length - a) := by
  simp [pySlice]

theorem pySlice_getD_default (l : List α) (n : Nat) (d : α) (e : α)
    (h : l[n]? = some e) : l.getD n d = e := by
  simp [List.getD_eq_getElem?_getD, h]

/-! Overlap detection and resolution lemmas (claims on
`EntityValidator.resolve_overlaps`). -/

theorem mem_overlapsWithFrom (e1 : Entity) (i : Nat) (l : List Entity) :
    ∀ j0 t e2, l[t]? = some e2 → entitiesOverlap e1 e2 = true →
      (i, j0 + t) ∈ overlapsWithFrom e1 i j0 l := by
  induction l with
  | nil => intro j0 t e2 h _; simp at h
  | cons x xs ih =>
    intro j0 t e2 h hov
    cases t with
    | zero =>
      simp only [List.getElem?_cons_zero, Option.some.injEq] at h
      subst h
      simp [overlapsWithFrom, hov]
    | succ t =>
      simp only [List.getElem?_cons_succ] at h
      have hrec := ih (j0 + 1) t e2 h hov
      simp only [overlapsWithFrom, List.mem_append]
      right
      have harith : j0 + (t + 1) = j0 + 1 + t := by omega
      rw [harith]
      exact hrec

theorem mem_detectOverlapsFrom (l : List Entity) :
    ∀ i0 a b ea eb, l[a]? = some ea → l[b]? = some eb → a < b →
      entitiesOverlap ea eb = true →
      (i0 + a, i0 + b) ∈ detectOverlapsFrom i0 l := by
  induction l with
  | nil => intro i0 a b ea eb ha _ _ _; simp at ha
  | cons x xs ih =>
    intro i0 a b ea eb ha hb hab hov
    cases b with
    | zero => omega
    | succ b =>
      simp only [List.getElem?_cons_succ] at hb
      cases a with
      | zero =>
        simp only [List.getElem?_cons_zero, Option.some.injEq] at ha
        rw [← ha] at hov
        simp only [detectOverlapsFrom, List.mem_append]
        left
        have hrec := mem_overlapsWithFrom x i0 xs (i0 + 1) b eb hb hov
        have harith : i0 + (b + 1) = i0 + 1 + b := by omega
        rw [harith]
        exact hrec
      | succ a =>
        simp only [List.getElem?_cons_succ] at ha
        simp only [detectOverlapsFrom, List.mem_append]
        right
        have hrec := ih (i0 + 1) a b ea eb ha hb (by omega) hov
        have h1 : i0 + (a + 1) = i0 + 1 + a := by omega
        have h2 : i0 + (b + 1) = i0 + 1 + b := by omega
        rw [h1, h2]
        exact hrec

theorem mem_detectOverlaps (es : List Entity) (a b : Nat) (ea eb : Entity)
    (ha : es[a]? = some ea) (hb : es[b]? = some eb) (hab : a < b)
    (hov : entitiesOverlap ea eb = true) : (a, b) ∈ detectOverlaps es := by
  have := mem_detectOverlapsFrom es 0 a b ea eb ha hb hab hov
  simpa [detectOverlaps] using this

theorem resolveLoop_subset (es : List Entity) (strategy : String) :
    ∀ ps r x, x ∈ r → x ∈ resolveLoop es strategy ps r := by
  intro ps
  induction ps with
  | nil => intro r x hx; simpa [resolveLoop] using hx
  | cons p rest ih =>
    intro r x hx
    match p with
    | (i, j) =>
      simp only [resolveLoop]
      split
      · exact ih r x hx
      · exact ih _ x (List.mem_cons_of_mem _ hx)

theorem pickVictim_eq_or (strategy : String) (i j : Nat) (e1 e2 : Entity) :
    pickVictim strategy i j e1 e2 = i ∨ pickVictim strategy i j e1 e2 = j := by
  unfold pickVictim
  split
  · split
    · exact Or.inl rfl
    · exact Or.inr rfl
  · split
    · split
      · exact Or.inl rfl
      · exact Or.inr rfl
    · split
      · exact Or.inr rfl
      · exact Or.inr rfl

theorem resolveLoop_covers (es : List Entity) (strategy : String) :
    ∀ ps r p, p ∈ ps →
      p.1 ∈ resolveLoop es strategy ps r ∨ p.2 ∈ resolveLoop es strategy ps r := by
  intro ps
  induction ps with
  | nil => intro r p hp; cases hp
  | cons q rest ih =>
    intro r p hp
    obtain ⟨i, j⟩ := q
    rcases List.mem_cons.1 hp with hp | hp
    · subst hp
      simp only [resolveLoop]
      split
      case isTrue h =>
        rcases h with h | h
        · exact Or.inl (resolveLoop_subset es strategy rest r _ h)
        · exact Or.inr (resolveLoop_subset es strategy rest r _ h)
      case isFalse h =>
        rcases pickVictim_eq_or strategy i j (es.getD i default) (es.getD j default)
          with hv | hv
        · left
          refine resolveLoop_subset es strategy rest _ _ ?_
          rw [hv]
          exact List.mem_cons_self _ _
        · right
          refine resolveLoop_subset es strategy rest _ _ ?_
          rw [hv]
          exact List.mem_cons_self _ _
    · simp only [resolveLoop]
      split
      · exact ih r p hp
      · exact ih _ p hp

theorem keptPairwise (es : List Entity) (R : List Nat)
    (H : ∀ i j e1 e2, es[i]? = some e1 → es[j]? = some e2 → i < j →
      i ∉ R → j ∉ R → entitiesOverlap e1 e2 = true → False) :
    (((withIdx 0 es).filter (fun p => decide (p.1 ∉ R))).map Prod.snd).Pairwise
      (fun a b => entitiesOverlap a b = false) := by
  rw [List.pairwise_map]
  have hpw : ((withIdx 0 es).filter (fun p => decide (p.1 ∉ R))).Pairwise
      (fun a b => a.1 < b.1) := (pairwise_withIdx es 0).filter _
  refine hpw.imp_of_mem ?_
  intro a b ha hb hlt
  have ha' := List.mem_filter.1 ha
  have hb' := List.mem_filter.1 hb
  obtain ⟨ma, hma, hga⟩ := mem_withIdx es 0 a ha'.1
  obtain ⟨mb, hmb, hgb⟩ := mem_withIdx es 0 b hb'.1
  have hia : a.1 ∉ R := of_decide_eq_true ha'.2
  have hib : b.1 ∉ R := of_decide_eq_true hb'.2
  cases hov : entitiesOverlap a.2 b.2
  · rfl
  · exfalso
    refine H a.1 b.1 a.2 b.2 ?_ ?_ hlt hia hib hov
    · rw [hma]; simpa using hga
    · rw [hmb]; simpa using hgb

theorem filter_nil_removed (es : List Entity) :
    ((withIdx 0 es).filter (fun p => decide (p.1 ∉ ([] : List Nat)))).map Prod.snd
      = es := by
  have : ∀ p : Nat × Entity, (decide (p.1 ∉ ([] : List Nat))) = true := by
    intro p; simp
  rw [List.filter_eq_self.2 (fun a _ => this a), withIdx_map_snd]

/-- C3: No-overlap invariant.  For every entity list and every resolution
strategy string, any two distinct spans in the output of
`resolve_overlaps` have non-intersecting intervals: the output list is
pairwise non-overlapping in the sense of `_entities_overlap`
(`end1 <= start2 or end2 <= start1`). -/
theorem C3_resolveOverlaps_no_overlap (es : List Entity) (strategy : String) :
    (resolveOverlaps es strategy).Pairwise
      (fun a b => entitiesOverlap a b = false) := by
  unfold resolveOverlaps
  split
  · simp
  · split
    case isTrue hempty =>
      rw [← filter_nil_removed es]
      refine keptPairwise es [] ?_
      intro i j e1 e2 ha hb hij _ _ hov
      have := mem_detectOverlaps es i j e1 e2 ha hb hij hov
      rw [hempty] at this
      cases this
    case isFalse hne =>
      refine keptPairwise es _ ?_
      intro i j e1 e2 ha hb hij hiR hjR hov
      have hmem := mem_detectOverlaps es i j e1 e2 ha hb hij hov
      rcases resolveLoop_covers es strategy (detectOverlaps es) [] (i, j) hmem with h | h
      · exact hiR h
      · exact hjR h

/-- Counterexample to C7 as stated: two overlapping spans with equal
scores under `highest_confidence`; the claim says the second span of the
pair is kept, but the code keeps the first (`idx2` is removed because
`score2 > score1` is false on ties). -/
theorem C7_counterexample :
    resolveOverlaps [tieEnt1, tieEnt2] "highest_confidence" = [tieEnt1] ∧
      tieEnt1 ≠ tieEnt2 := by
  constructor
  · decide
  · decide

/-- C7 (amended): in `resolve_overlaps` with strategy
`highest_confidence`, for each detected overlapping pair (in detection
order) where neither member was already removed, the strictly
lower-scoring span of the pair is dropped, and when the two scores are
equal the SECOND span of the pair is the one dropped (the first is kept):
the code's loop equals the greedy pass `hcGreedy` written from that
description. -/
theorem C7_highest_confidence_tiebreak (es : List Entity) :
    ∀ ps r, resolveLoop es "highest_confidence" ps r = hcGreedy es ps r := by
  intro ps
  induction ps with
  | nil => intro r; rfl
  | cons q rest ih =>
    intro r
    obtain ⟨i, j⟩ := q
    simp only [resolveLoop, hcGreedy]
    split
    · exact ih r
    · have hpv : pickVictim "highest_confidence" i j (es.getD i default)
          (es.getD j default)
          = if (es.getD j default).score > (es.getD i default).score then i else j := by
        simp [pickVictim]
      rw [hpv]
      rcases lt_trichotomy (es.getD i default).score (es.getD j default).score
        with h | h | h
      · rw [if_pos h, if_pos h]
        exact ih _
      · rw [if_neg (by rw [h]; exact lt_irrefl _),
          if_neg (by rw [h]; exact lt_irrefl _),
          if_neg (by rw [h]; exact lt_irrefl _)]
        exact ih _
      · rw [if_neg (lt_asymm h), if_neg (lt_asymm h), if_pos h]
        exact ih _

/-- C9: the adjacent-merge scenario.  For any source text (the claim
stipulates length at least 10) and exactly the two spans
`{person, 0, 4, s1}` and `{person, 5, 10, s2}` (gap 1),
`EntityMerger.merge` with `max_gap 1` returns the single span `[0, 10)`
whose text is the stripped source substring and whose score is
`(s1 * 1 + s2) / 2`, with the internal `count` key absent. -/
theorem C9_merge_adjacent (text t1 t2 : List Char) (s1 s2 : ℚ)
    (_h : 10 ≤ text.length) :
    merge 1 [⟨"person".toList, t1, 0, 4, s1, none⟩,
             ⟨"person".toList, t2, 5, 10, s2, none⟩] text
      = [⟨"person".toList, pyStrip (pySlice text 0 10), 0, 10,
          (s1 * 1 + s2) / 2, none⟩] := by
  have hstep : merge 1 [⟨['p','e','r','s','o','n'], t1, 0, 4, s1, none⟩,
      ⟨['p','e','r','s','o','n'], t2, 5, 10, s2, none⟩] text
      = [⟨['p','e','r','s','o','n'], pyStrip (pySlice text 0 10), 0, 10,
          (s1 * ((1 : ℕ) : ℚ) + s2) / (((1 : ℕ) : ℚ) + 1), none⟩] := rfl
  rw [show ("person".toList) = ['p','e','r','s','o','n'] from rfl, hstep]
  simp only [List.cons.injEq, Entity.mk.injEq, and_true, true_and]
  push_cast
  norm_num

/-- Witness for C9 at a concrete text of length 26. -/
theorem C9_witness :
    merge 1 [⟨"person".toList, "John".toList, 0, 4, 1/2, none⟩,
             ⟨"person".toList, "Smith".toList, 5, 10, 3/4, none⟩] idText
      = [⟨"person".toList, pyStrip (pySlice idText 0 10), 0, 10,
          (1/2 * 1 + 3/4) / 2, none⟩] :=
  C9_merge_adjacent idText ("John".toList) ("Smith".toList) (1/2) (3/4) (by norm_num [idText])

/-! Chunker lemmas. -/

theorem chainBnd_mono {lo' lo hi : Nat} (h : lo' ≤ lo) :
    ∀ {l : List (Nat × Nat)}, ChainBnd lo hi l → ChainBnd lo' hi l := by
  intro l hc
  cases l with
  | nil => trivial
  | cons p rest =>
    obtain ⟨h1, h2, h3, h4⟩ := hc
    exact ⟨le_trans h h1, h2, h3, h4⟩

theorem chain_wordSpansAux (cs : List Char) :
    ∀ i : Nat,
      ChainBnd i (i + cs.length) (wordSpansAux cs i none) ∧
      (∀ s, s < i → ChainBnd s (i + cs.length) (wordSpansAux cs i (some s))) := by
  induction cs with
  | nil =>
    intro i
    constructor
    · trivial
    · intro s hs
      exact ⟨le_refl s, hs, by omega, trivial⟩
  | cons c cs ih =>
    intro i
    have hlen : (i + 1) + cs.length = i + (c :: cs).length := by
      simp [List.length_cons]; omega
    constructor
    · show ChainBnd i (i + (c :: cs).length) (wordSpansAux (c :: cs) i none)
      unfold wordSpansAux
      split
      · exact chainBnd_mono (by omega) (hlen ▸ (ih (i + 1)).1)
      · exact hlen ▸ (ih (i + 1)).2 i (by omega)
    · intro s hs
      show ChainBnd s (i + (c :: cs).length) (wordSpansAux (c :: cs) i (some s))
      unfold wordSpansAux
      split
      · refine ⟨le_refl s, hs, by simp, ?_⟩
        exact chainBnd_mono (by omega) (hlen ▸ (ih (i + 1)).1)
      · exact hlen ▸ (ih (i + 1)).2 s (by omega)

theorem chain_wordSpans (text : List Char) :
    ChainBnd 0 text.length (wordSpans text) := by
  have := (chain_wordSpansAux text 0).1
  simpa [wordSpans] using this

theorem chain_prefix {hi : Nat} :
    ∀ {l1 l2 : List (Nat × Nat)} {lo : Nat},
      ChainBnd lo hi (l1 ++ l2) → ChainBnd lo hi l1 := by
  intro l1
  induction l1 with
  | nil => intro l2 lo _; trivial
  | cons p rest ih =>
    intro l2 lo hc
    obtain ⟨h1, h2, h3, h4⟩ := hc
    exact ⟨h1, h2, h3, ih h4⟩

theorem chain_suffix {hi : Nat} :
    ∀ {l1 l2 : List (Nat × Nat)} {lo : Nat},
      ChainBnd lo hi (l1 ++ l2) → ∃ lo2, lo ≤ lo2 ∧ ChainBnd lo2 hi l2 := by
  intro l1
  induction l1 with
  | nil => intro l2 lo hc; exact ⟨lo, le_refl lo, hc⟩
  | cons p rest ih =>
    intro l2 lo hc
    obtain ⟨h1, h2, h3, h4⟩ := hc
    obtain ⟨lo2, hlo2, hc2⟩ := ih h4
    exact ⟨lo2, by omega, hc2⟩

theorem chain_mem {hi : Nat} :
    ∀ {l : List (Nat × Nat)} {lo : Nat}, ChainBnd lo hi l →
      ∀ p ∈ l, lo ≤ p.1 ∧ p.1 < p.2 ∧ p.2 ≤ hi := by
  intro l
  induction l with
  | nil => intro lo _ p hp; cases hp
  | cons q rest ih =>
    intro lo hc p hp
    obtain ⟨h1, h2, h3, h4⟩ := hc
    rcases List.mem_cons.1 hp with hp | hp
    · subst hp; exact ⟨h1, h2, h3⟩
    · have := ih h4 p hp
      exact ⟨by omega, this.2.1, this.2.2⟩

theorem chain_head_last {hi : Nat} :
    ∀ {r : List (Nat × Nat)} {f : Nat × Nat} {lo : Nat},
      ChainBnd lo hi (f :: r) →
      ∀ q ∈ f :: r, f.1 ≤ q.1 ∧ q.2 ≤ (r.getLastD f).2 := by
  intro r
  induction r with
  | nil =>
    intro f lo hc q hq
    rcases List.mem_cons.1 hq with hq | hq
    · subst hq; exact ⟨le_refl _, le_refl _⟩
    · cases hq
  | cons x r' ih =>
    intro f lo hc q hq
    obtain ⟨h1, h2, h3, h4⟩ := hc
    have hxmem : ∀ q ∈ x :: r', x.1 ≤ q.1 ∧ q.2 ≤ (r'.getLastD x).2 := ih h4
    have hlast : ((x :: r').getLastD f).2 = (r'.getLastD x).2 := by
      cases r' with
      | nil => simp
      | cons y r'' =>
        show ((x :: y :: r'').getLast?.getD f).2 = ((y :: r'').getLast?.getD x).2
        rw [List.getLast?_cons_cons]
        rcases h : (y :: r'').getLast? with _ | z
        · rw [List.getLast?_eq_none_iff] at h
          cases h
        · rfl
    rcases List.mem_cons.1 hq with hq | hq
    · subst hq
      refine ⟨le_refl _, ?_⟩
      rw [hlast]
      have hx := hxmem x (List.mem_cons_self _ _)
      obtain ⟨hx1, hx2, hx3, -⟩ := h4
      omega
    · have := hxmem q hq
      obtain ⟨hx1, hx2, hx3, -⟩ := h4
      rw [hlast]
      exact ⟨by omega, this.2⟩

theorem spanGroupsAux_chain (k hi : Nat) :
    ∀ (fuel : Nat) (l : List (Nat × Nat)), l.length ≤ fuel →
      ∀ lo, ChainBnd lo hi l →
        ∀ g ∈ spanGroupsAux k fuel l, ∃ lo2, lo ≤ lo2 ∧ ChainBnd lo2 hi (g.1 :: g.2) := by
  intro fuel
  induction fuel with
  | zero =>
    intro l hl lo hc g hg
    cases l with
    | nil => cases hg
    | cons x xs => simp at hl
  | succ fuel ih =>
    intro l hl lo hc g hg
    cases l with
    | nil => cases hg
    | cons x xs =>
      rcases List.mem_cons.1 hg with hg | hg
      · subst hg
        refine ⟨lo, le_refl lo, ?_⟩
        obtain ⟨h1, h2, h3, h4⟩ := hc
        have hpre : ChainBnd x.2 hi (xs.take k) := by
          have hsplit := List.take_append_drop k xs
          exact chain_prefix (hsplit ▸ h4)
        exact ⟨h1, h2, h3, hpre⟩
      · obtain ⟨h1, h2, h3, h4⟩ := hc
        have hsuf : ∃ lo2, x.2 ≤ lo2 ∧ ChainBnd lo2 hi (xs.drop k) := by
          have hsplit := List.take_append_drop k xs
          exact chain_suffix (hsplit ▸ h4)
        obtain ⟨lo2, hlo2, hc2⟩ := hsuf
        have hlen : (xs.drop k).length ≤ fuel := by
          simp only [List.length_drop]
          simp only [List.length_cons] at hl
          omega
        obtain ⟨lo3, hlo3, hc3⟩ := ih (xs.drop k) hlen lo2 hc2 g hg
        exact ⟨lo3, by omega, hc3⟩

theorem mem_spanGroups_chain (k hi : Nat) :
    ∀ (l : List (Nat × Nat)) (lo : Nat), ChainBnd lo hi l →
      ∀ g ∈ spanGroups k l, ∃ lo2, lo ≤ lo2 ∧ ChainBnd lo2 hi (g.1 :: g.2) := by
  intro l lo hc g hg
  exact spanGroupsAux_chain k hi l.length l (le_refl _) lo hc g hg

theorem spanGroupsAux_head_mem (k : Nat) :
    ∀ (fuel : Nat) (l : List (Nat × Nat)) (g : (Nat × Nat) × List (Nat × Nat)),
      g ∈ spanGroupsAux k fuel l → g.1 ∈ l := by
  intro fuel
  induction fuel with
  | zero =>
    intro l g hg
    cases l with
    | nil => cases hg
    | cons x xs => cases hg
  | succ fuel ih =>
    intro l g hg
    cases l with
    | nil => cases hg
    | cons x xs =>
      rcases List.mem_cons.1 hg with hg | hg
      · subst hg; exact List.mem_cons_self _ _
      · exact List.mem_cons_of_mem _ (List.mem_of_mem_drop (ih (xs.drop k) g hg))

theorem spanGroupsAux_heads_pairwise (k hi : Nat) :
    ∀ (fuel : Nat) (l : List (Nat × Nat)), l.length ≤ fuel →
      ∀ lo, ChainBnd lo hi l →
        (spanGroupsAux k fuel l).Pairwise (fun g1 g2 => g1.1.1 < g2.1.1) := by
  intro fuel
  induction fuel with
  | zero =>
    intro l hl lo hc
    cases l with
    | nil => exact List.Pairwise.nil
    | cons x xs => simp at hl
  | succ fuel ih =>
    intro l hl lo hc
    cases l with
    | nil => exact List.Pairwise.nil
    | cons x xs =>
      obtain ⟨h1, h2, h3, h4⟩ := hc
      have hsuf : ∃ lo2, x.2 ≤ lo2 ∧ ChainBnd lo2 hi (xs.drop k) := by
        have hsplit := List.take_append_drop k xs
        exact chain_suffix (hsplit ▸ h4)
      obtain ⟨lo2, hlo2, hc2⟩ := hsuf
      have hlen : (xs.drop k).length ≤ fuel := by
        simp only [List.length_drop]
        simp only [List.length_cons] at hl
        omega
      refine List.Pairwise.cons ?_ (ih (xs.drop k) hlen lo2 hc2)
      intro g hg
      have hhead := spanGroupsAux_head_mem k fuel (xs.drop k) g hg
      have := chain_mem hc2 g.1 hhead
      simp only
      omega

theorem spanGroups_heads_pairwise (k hi : Nat) :
    ∀ (l : List (Nat × Nat)) (lo : Nat), ChainBnd lo hi l →
      (spanGroups k l).Pairwise (fun g1 g2 => g1.1.1 < g2.1.1) := by
  intro l lo hc
  exact spanGroupsAux_heads_pairwise k hi l.length l (le_refl _) lo hc

theorem spanGroupsAux_covers (k : Nat) :
    ∀ (fuel : Nat) (l : List (Nat × Nat)), l.length ≤ fuel →
      ∀ p ∈ l, ∃ g ∈ spanGroupsAux k fuel l, p ∈ g.1 :: g.2 := by
  intro fuel
  induction fuel with
  | zero =>
    intro l hl p hp
    cases l with
    | nil => cases hp
    | cons x xs => simp at hl
  | succ fuel ih =>
    intro l hl p hp
    cases l with
    | nil => cases hp
    | cons x xs =>
      have hlen : (xs.drop k).length ≤ fuel := by
        simp only [List.length_drop]
        simp only [List.length_cons] at hl
        omega
      rcases List.mem_cons.1 hp with hp | hp
      · exact ⟨(x, xs.take k), List.mem_cons_self _ _, by subst hp; exact List.mem_cons_self _ _⟩
      · have hsplit := List.take_append_drop k xs
        rw [← hsplit] at hp
        rcases List.mem_append.1 hp with hp | hp
        · exact ⟨(x, xs.take k), List.mem_cons_self _ _, List.mem_cons_of_mem _ hp⟩
        · obtain ⟨g, hg, hpg⟩ := ih (xs.drop k) hlen p hp
          exact ⟨g, List.mem_cons_of_mem _ hg, hpg⟩

theorem spanGroups_covers (k : Nat) :
    ∀ (l : List (Nat × Nat)) (p : Nat × Nat), p ∈ l →
      ∃ g ∈ spanGroups k l, p ∈ g.1 :: g.2 := by
  intro l p hp
  exact spanGroupsAux_covers k l.length l (le_refl _) p hp

theorem spanGroups_ne_nil (k : Nat) (l : List (Nat × Nat)) (h : l ≠ []) :
    spanGroups k l ≠ [] := by
  cases l with
  | nil => exact absurd rfl h
  | cons x xs =>
    show spanGroupsAux k (x :: xs).length (x :: xs) ≠ []
    rw [List.length_cons]
    simp [spanGroupsAux]

theorem getLastD_mem_cons : ∀ (r : List α) (f : α), r.getLastD f ∈ f :: r := by
  intro r
  induction r with
  | nil => intro f; simp
  | cons y r' ih =>
    intro f
    have h : (y :: r').getLastD f = r'.getLastD y := by
      cases r' with
      | nil => simp
      | cons z r'' =>
        show ((y :: z :: r'').getLast?.getD f) = ((z :: r'').getLast?.getD y)
        rw [List.getLast?_cons_cons]
        rcases hz : (z :: r'').getLast? with _ | w
        · rw [List.getLast?_eq_none_iff] at hz
          cases hz
        · rfl
    rw [h]
    exact List.mem_cons_of_mem f (ih y)

theorem wordSpansAux_all_space :
    ∀ (cs : List Char) (i : Nat), (∀ c ∈ cs, isSpaceChar c = true) →
      wordSpansAux cs i none = [] := by
  intro cs
  induction cs with
  | nil => intro i _; rfl
  | cons c cs ih =>
    intro i h
    have hc : isSpaceChar c = true := h c (List.mem_cons_self _ _)
    unfold wordSpansAux
    rw [if_pos hc]
    exact ih (i + 1) (fun x hx => h x (List.mem_cons_of_mem _ hx))

theorem all_space_of_pyStrip_nil (l : List Char) (h : pyStrip l = []) :
    ∀ c ∈ l, isSpaceChar c = true := by
  unfold pyStrip at h
  rw [List.reverse_eq_nil_iff, List.dropWhile_eq_nil_iff] at h
  have hdrop : ∀ c ∈ l.dropWhile isSpaceChar, isSpaceChar c = true := by
    intro c hc
    exact h c (List.mem_reverse.2 hc)
  intro c hc
  rw [← List.takeWhile_append_dropWhile (p := isSpaceChar) (l := l)] at hc
  rcases List.mem_append.1 hc with hc | hc
  · exact List.mem_takeWhile_imp hc
  · exact hdrop c hc

theorem wordSpans_nil_of_degenerate (text : List Char)
    (h : text = [] ∨ pyStrip text = []) : wordSpans text = [] := by
  rcases h with h | h
  · subst h; rfl
  · exact wordSpansAux_all_space text 0 (all_space_of_pyStrip_nil text h)

theorem chunkText_chunk_facts (text : List Char) (cs : Nat) :
    ∀ p ∈ chunkText text cs,
      pySlice text p.2 (p.2 + p.1.length) = p.1 ∧
      p.2 < text.length ∧ p.2 + p.1.length ≤ text.length := by
  intro p hp
  unfold chunkText at hp
  split at hp
  · cases hp
  · split at hp
    · cases hp
    · obtain ⟨g, hg, hpg⟩ := List.mem_map.1 hp
      obtain ⟨lo2, -, hc⟩ := mem_spanGroups_chain _ text.length (wordSpans text) 0
        (chain_wordSpans text) g hg
      have hf12 : g.1.1 < g.1.2 :=
        (chain_mem hc g.1 (List.mem_cons_self _ _)).2.1
      have hql := chain_head_last hc
      have hlmem : g.2.getLastD g.1 ∈ g.1 :: g.2 := getLastD_mem_cons g.2 g.1
      have hlhi : (g.2.getLastD g.1).2 ≤ text.length := (chain_mem hc _ hlmem).2.2
      have hf2l : g.1.2 ≤ (g.2.getLastD g.1).2 :=
        (hql g.1 (List.mem_cons_self _ _)).2
      have hfl : g.1.1 < (g.2.getLastD g.1).2 := by omega
      have hlen : (pySlice text g.1.1 (g.2.getLastD g.1).2).length
          = (g.2.getLastD g.1).2 - g.1.1 := by
        rw [length_pySlice]
        omega
      subst hpg
      simp only at *
      refine ⟨?_, by omega, by omega⟩
      have harith : g.1.1 + (pySlice text g.1.1 (g.2.getLastD g.1).2).length
          = (g.2.getLastD g.1).2 := by omega
      rw [harith]

theorem chunkText_offsets_pairwise (text : List Char) (cs : Nat) :
    (chunkText text cs).Pairwise (fun a b => a.2 < b.2) := by
  unfold chunkText
  split
  · simp
  · split
    · simp
    · rw [List.pairwise_map]
      have := spanGroups_heads_pairwise ((if cs = 0 then 600 else cs) - 1)
        text.length (wordSpans text) 0 (chain_wordSpans text)
      exact this.imp (fun h => h)

theorem chunkText_covers_words (text : List Char) (cs : Nat) :
    ∀ w ∈ wordSpans text, ∃ p ∈ chunkText text cs,
      p.2 ≤ w.1 ∧ w.2 ≤ p.2 + p.1.length := by
  intro w hw
  unfold chunkText
  split
  case isTrue h =>
    rw [wordSpans_nil_of_degenerate text h] at hw
    cases hw
  case isFalse h =>
    split
    case isTrue h2 =>
      rw [h2] at hw
      cases hw
    case isFalse h2 =>
      obtain ⟨g, hg, hwg⟩ :=
        spanGroups_covers ((if cs = 0 then 600 else cs) - 1) (wordSpans text) w hw
      refine ⟨(pySlice text g.1.1 (g.2.getLastD g.1).2, g.1.1),
        List.mem_map_of_mem _ hg, ?_⟩
      obtain ⟨lo2, -, hc⟩ := mem_spanGroups_chain _ text.length (wordSpans text) 0
        (chain_wordSpans text) g hg
      have hf12 : g.1.1 < g.1.2 :=
        (chain_mem hc g.1 (List.mem_cons_self _ _)).2.1
      have hql := chain_head_last hc
      have hlmem : g.2.getLastD g.1 ∈ g.1 :: g.2 := getLastD_mem_cons g.2 g.1
      have hlhi : (g.2.getLastD g.1).2 ≤ text.length := (chain_mem hc _ hlmem).2.2
      have hf2l : g.1.2 ≤ (g.2.getLastD g.1).2 :=
        (hql g.1 (List.mem_cons_self _ _)).2
      have hw1 : g.1.1 ≤ w.1 := (hql w hwg).1
      have hw2 : w.2 ≤ (g.2.getLastD g.1).2 := (hql w hwg).2
      have hlen : (pySlice text g.1.1 (g.2.getLastD g.1).2).length
          = (g.2.getLastD g.1).2 - g.1.1 := by
        rw [length_pySlice]
        omega
      constructor
      · exact hw1
      · simp only
        omega

theorem chunkText_validates (text : List Char) (cs : Nat)
    (hw : wordSpans text ≠ []) :
    validateChunks (chunkText text cs) text = true := by
  have hdeg : ¬(text = [] ∨ pyStrip text = []) := by
    intro h
    exact hw (wordSpans_nil_of_degenerate text h)
  have htext : text ≠ [] := by
    intro h
    exact hdeg (Or.inl h)
  have hchunks : chunkText text cs ≠ [] := by
    unfold chunkText
    rw [if_neg hdeg, if_neg hw]
    intro hmap
    exact spanGroups_ne_nil _ _ hw (List.map_eq_nil_iff.1 hmap)
  unfold validateChunks
  rw [if_neg (by simp [hchunks, htext])]
  rw [List.all_eq_true]
  intro p hp
  obtain ⟨hslice, hlt, hle⟩ := chunkText_chunk_facts text cs p hp
  simp [hslice, hlt, hle]

/-- Counterexample to C4 as stated: for the whitespace-only text
consisting of one space (and chunk size 1), `chunk_text` returns the
empty list and `validate_chunks` rejects it (it returns `False` for an
empty chunk list), so the parenthetical "validate_chunks accepts the
result" fails even though every returned pair (vacuously) satisfies the
substring property. -/
theorem C4_counterexample :
    chunkText (" ".toList) 1 = [] ∧
      validateChunks (chunkText (" ".toList) 1) (" ".toList) = false := by
  constructor
  · rfl
  · rfl

/-- C4 (amended): chunking round-trip.  For every text and chunk size
greater than 0: (1) each `(chunk, offset)` pair returned by `chunk_text`
satisfies `text[offset : offset + len(chunk)] == chunk`; (2) chunks
appear in strictly ascending offset order; (3) every maximal run of
non-whitespace characters (word span) lies entirely within a single
chunk; and (4) `validate_chunks` accepts the result PROVIDED the text
contains at least one word (for a wordless text `chunk_text` returns `[]`
and `validate_chunks` rejects the empty chunk list). -/
theorem C4_chunk_roundtrip (text : List Char) (chunkSize : Nat)
    (_hcs : 0 < chunkSize) :
    (∀ p ∈ chunkText text chunkSize,
      pySlice text p.2 (p.2 + p.1.length) = p.1) ∧
    (chunkText text chunkSize).Pairwise (fun a b => a.2 < b.2) ∧
    (∀ w ∈ wordSpans text, ∃ p ∈ chunkText text chunkSize,
      p.2 ≤ w.1 ∧ w.2 ≤ p.2 + p.1.length) ∧
    (wordSpans text ≠ [] →
      validateChunks (chunkText text chunkSize) text = true) :=
  ⟨fun p hp => (chunkText_chunk_facts text chunkSize p hp).1,
   chunkText_offsets_pairwise text chunkSize,
   chunkText_covers_words text chunkSize,
   chunkText_validates text chunkSize⟩

/-- Witness for C4 at the concrete text `"ab cd"` with chunk size 1. -/
theorem C4_witness :
    validateChunks (chunkText sampleText 1) sampleText = true :=
  (C4_chunk_roundtrip sampleText 1 (by decide)).2.2.2 (by decide)

/-! Parallel-dispatch lemmas. -/

theorem pySlice_nested (text : List Char) (o s e L : Nat) (chunk : List Char)
    (hchunk : chunk = (text.drop o).take L) (he : e ≤ L) :
    pySlice text (o + s) (o + e) = pySlice chunk s e := by
  subst hchunk
  unfold pySlice
  rw [show o + e - (o + s) = e - s by omega]
  rw [List.drop_take, List.take_take, List.drop_drop]
  rw [show min (e - s) (L - s) = e - s by omega]

theorem chunk_as_take (text : List Char) (p : List Char × Nat)
    (h : pySlice text p.2 (p.2 + p.1.length) = p.1) :
    p.1 = (text.drop p.2).take p.1.length := by
  have h2 : pySlice text p.2 (p.2 + p.1.length) = (text.drop p.2).take p.1.length := by
    unfold pySlice
    rw [show p.2 + p.1.length - p.2 = p.1.length by omega]
  exact h.symm.trans h2

/-- C5: offset fidelity of parallel dispatch.  If the per-chunk labeler
returns, for each chunk it is given, only spans with
`0 <= start < end <= len(chunk)` whose `text` equals `chunk[start:end]`,
then every span returned by `extract_entities_in_parallel` satisfies
`full_text[start:end] == span.text` (the chunk offset having been added to
its positions by `extract_entities_for_chunk`). -/
theorem C5_parallel_offsets (fullText : List Char)
    (extractor : List Char → List Entity) (chunkSize : Nat)
    (H : ∀ p ∈ chunkText fullText chunkSize, ∀ e ∈ extractor p.1,
      e.start < e.stop ∧ e.stop ≤ p.1.length ∧ e.text = pySlice p.1 e.start e.stop) :
    ∀ ent ∈ extractEntitiesInParallel fullText extractor chunkSize,
      pySlice fullText ent.start ent.stop = ent.text := by
  intro ent hent
  unfold extractEntitiesInParallel at hent
  split at hent
  · cases hent
  · split at hent
    · cases hent
    · rw [mem_pySorted] at hent
      obtain ⟨p, hp, hmem⟩ := List.mem_flatMap.1 hent
      unfold extractEntitiesForChunk at hmem
      obtain ⟨e0, he0, heq⟩ := List.mem_map.1 hmem
      obtain ⟨h1, h2, h3⟩ := H p hp e0 he0
      subst heq
      show pySlice fullText (e0.start + p.2) (e0.stop + p.2) = e0.text
      have hchunk := (chunkText_chunk_facts fullText chunkSize p hp).1
      rw [show e0.start + p.2 = p.2 + e0.start by omega,
        show e0.stop + p.2 = p.2 + e0.stop by omega,
        pySlice_nested fullText p.2 e0.start e0.stop p.1.length p.1
          (chunk_as_take fullText p hchunk) h2, ← h3]

/-- Witness for C5 at the text `"ab cd"`, chunk size 1, the sample
labeler and the span found in the second chunk. -/
theorem C5_witness :
    pySlice sampleText 4 5 = "d".toList :=
  C5_parallel_offsets sampleText sampleExtractor 1 (by decide)
    ⟨"letter".toList, "d".toList, 4, 5, 1, none⟩ (by decide)

/-! Default-strategy lemmas. -/

theorem not_digit_and_upper (c : Char) (h1 : c.isDigit = true)
    (h2 : c.isUpper = true) : False := by
  simp only [Char.isDigit, Bool.and_eq_true, decide_eq_true_eq] at h1
  simp only [Char.isUpper, Bool.and_eq_true, decide_eq_true_eq] at h2
  have hcontra : (65 : UInt32) ≤ 57 := UInt32.le_trans h2.1 h1.2
  exact absurd hcontra (by decide)

theorem not_digit_and_lower (c : Char) (h1 : c.isDigit = true)
    (h2 : c.isLower = true) : False := by
  simp only [Char.isDigit, Bool.and_eq_true, decide_eq_true_eq] at h1
  simp only [Char.isLower, Bool.and_eq_true, decide_eq_true_eq] at h2
  have hcontra : (97 : UInt32) ≤ 57 := UInt32.le_trans h2.1 h1.2
  exact absurd hcontra (by decide)

theorem not_upper_and_lower (c : Char) (h1 : c.isUpper = true)
    (h2 : c.isLower = true) : False := by
  simp only [Char.isUpper, Bool.and_eq_true, decide_eq_true_eq] at h1
  simp only [Char.isLower, Bool.and_eq_true, decide_eq_true_eq] at h2
  have hcontra : (97 : UInt32) ≤ 90 := UInt32.le_trans h2.1 h1.2
  exact absurd hcontra (by decide)

theorem not_digit_and_alpha (c : Char) (h1 : c.isDigit = true)
    (h2 : c.isAlpha = true) : False := by
  rcases Bool.or_eq_true_iff.1 h2 with h | h
  · exact not_digit_and_upper c h1 h
  · exact not_digit_and_lower c h1 h

theorem alnum_of_digit (c : Char) (h : c.isDigit = true) :
    c.isAlphanum = true := by
  simp [Char.isAlphanum, h]

theorem alnum_of_alpha (c : Char) (h : c.isAlpha = true) :
    c.isAlphanum = true := by
  simp [Char.isAlphanum, h]

theorem zip_withIdx_map (l : List α) (f : Nat × α → β) :
    ∀ k, ∀ pc ∈ l.zip ((withIdx k l).map f), ∃ i, pc.2 = f (i, pc.1) := by
  induction l with
  | nil => intro k pc hpc; cases hpc
  | cons x xs ih =>
    intro k pc hpc
    have hzip : (x :: xs).zip ((withIdx k (x :: xs)).map f)
        = (x, f (k, x)) :: xs.zip ((withIdx (k + 1) xs).map f) := rfl
    rw [hzip] at hpc
    rcases List.mem_cons.1 hpc with hpc | hpc
    · exact ⟨k, by rw [hpc]⟩
    · exact ih (k + 1) pc hpc

theorem length_withIdx (l : List α) : ∀ k, (withIdx k l).length = l.length := by
  induction l with
  | nil => intro k; rfl
  | cons x xs ih => intro k; simp [withIdx, ih]

theorem strIsDigit_hasAlnum (l : List Char) (h : strIsDigit l = true) :
    strHasAlnum l = true := by
  unfold strIsDigit at h
  rw [Bool.and_eq_true, List.all_eq_true] at h
  obtain ⟨hne, hall⟩ := h
  cases l with
  | nil => simp [List.isEmpty] at hne
  | cons c cs =>
    unfold strHasAlnum
    rw [List.any_eq_true]
    exact ⟨c, List.mem_cons_self _ _, alnum_of_digit c (hall c (List.mem_cons_self _ _))⟩

theorem strIsAlpha_hasAlnum (l : List Char) (h : strIsAlpha l = true) :
    strHasAlnum l = true := by
  unfold strIsAlpha at h
  rw [Bool.and_eq_true, List.all_eq_true] at h
  obtain ⟨hne, hall⟩ := h
  cases l with
  | nil => simp [List.isEmpty] at hne
  | cons c cs =>
    unfold strHasAlnum
    rw [List.any_eq_true]
    exact ⟨c, List.mem_cons_self _ _, alnum_of_alpha c (hall c (List.mem_cons_self _ _))⟩

theorem ggr_cases (r : RandOracle) (orig label : List Char) :
    (strIsDigit orig = true ∧ generateGenericReplacement r orig label
        = (List.range orig.length).map r.pickDigit) ∨
    (strIsDigit orig = false ∧ strIsAlpha orig = true ∧
      generateGenericReplacement r orig label
        = (withIdx 0 orig).map fun p =>
            if p.2.isUpper then r.pickUpper p.1
            else if p.2.isLower then r.pickLower p.1
            else p.2) ∨
    (strIsDigit orig = false ∧ strIsAlpha orig = false ∧ strHasAlnum orig = true ∧
      generateGenericReplacement r orig label
        = (withIdx 0 orig).map fun p =>
            if p.2.isDigit then r.pickDigit p.1
            else if p.2.isAlpha then
              (if p.2.isUpper then r.pickUpper p.1 else r.pickLower p.1)
            else p.2) ∨
    (strIsDigit orig = false ∧ strIsAlpha orig = false ∧ strHasAlnum orig = false ∧
      generateGenericReplacement r orig label = placeholderFor label) := by
  unfold generateGenericReplacement
  by_cases h1 : strIsDigit orig = true
  · left
    rw [if_pos h1]
    exact ⟨h1, rfl⟩
  · rw [if_neg h1]
    by_cases h2 : strIsAlpha orig = true
    · right; left
      rw [if_pos h2]
      exact ⟨Bool.not_eq_true _ ▸ h1, h2, rfl⟩
    · rw [if_neg h2]
      by_cases h3 : strHasAlnum orig = true
      · right; right; left
        rw [if_pos h3]
        exact ⟨Bool.not_eq_true _ ▸ h1, Bool.not_eq_true _ ▸ h2, h3, rfl⟩
      · right; right; right
        rw [if_neg h3]
        exact ⟨Bool.not_eq_true _ ▸ h1, Bool.not_eq_true _ ▸ h2,
          Bool.not_eq_true _ ▸ h3, rfl⟩

theorem ggr_shape (r : RandOracle) (orig label : List Char)
    (hd : ∀ i, (r.pickDigit i).isDigit = true)
    (hu : ∀ i, (r.pickUpper i).isUpper = true)
    (hl : ∀ i, (r.pickLower i).isLower = true)
    (halnum : strHasAlnum orig = true) :
    (generateGenericReplacement r orig label).length = orig.length ∧
    ∀ pc ∈ orig.zip (generateGenericReplacement r orig label), CharShape pc.1 pc.2 := by
  rcases ggr_cases r orig label with ⟨hb, heq⟩ | ⟨h1, hb, heq⟩ |
    ⟨h1, h2, hb, heq⟩ | ⟨h1, h2, hb, heq⟩
  · -- all digits
    rw [heq]
    constructor
    · simp
    · intro pc hpc
      have hmem := List.of_mem_zip hpc
      have h1d : pc.1.isDigit = true := by
        unfold strIsDigit at hb
        rw [Bool.and_eq_true, List.all_eq_true] at hb
        exact hb.2 pc.1 hmem.1
      have h2d : pc.2.isDigit = true := by
        obtain ⟨-, hm2⟩ := hmem
        obtain ⟨i, -, hi⟩ := List.mem_map.1 hm2
        rw [← hi]
        exact hd i
      refine ⟨fun _ => h2d, fun hup => ?_, fun hlo => ?_, fun hna => ?_⟩
      · exact absurd hup (by intro hup; exact not_digit_and_upper pc.1 h1d hup)
      · exact absurd hlo (by intro hlo; exact not_digit_and_lower pc.1 h1d hlo)
      · rw [alnum_of_digit pc.1 h1d] at hna
        cases hna
  · -- all alphabetic
    rw [heq]
    constructor
    · simp [length_withIdx]
    · intro pc hpc
      have hmem := List.of_mem_zip hpc
      have h1a : pc.1.isAlpha = true := by
        unfold strIsAlpha at hb
        rw [Bool.and_eq_true, List.all_eq_true] at hb
        exact hb.2 pc.1 hmem.1
      obtain ⟨i, hi⟩ := zip_withIdx_map orig _ 0 pc hpc
      refine ⟨fun hdg => ?_, fun hup => ?_, fun hlo => ?_, fun hna => ?_⟩
      · exact absurd hdg (by intro hdg; exact not_digit_and_alpha pc.1 hdg h1a)
      · rw [hi, if_pos hup]
        exact hu i
      · have hnup : pc.1.isUpper = false := by
          cases hx : pc.1.isUpper
          · rfl
          · exact absurd hx (by intro hx; exact not_upper_and_lower pc.1 hx hlo)
        rw [hi, if_neg (by rw [hnup]; exact Bool.false_ne_true), if_pos hlo]
        exact hl i
      · rw [alnum_of_alpha pc.1 h1a] at hna
        cases hna
  · -- mixed
    rw [heq]
    constructor
    · simp [length_withIdx]
    · intro pc hpc
      obtain ⟨i, hi⟩ := zip_withIdx_map orig _ 0 pc hpc
      refine ⟨fun hdg => ?_, fun hup => ?_, fun hlo => ?_, fun hna => ?_⟩
      · rw [hi, if_pos hdg]
        exact hd i
      · have hnd : pc.1.isDigit = false := by
          cases hx : pc.1.isDigit
          · rfl
          · exact absurd hx (by intro hx; exact not_digit_and_upper pc.1 hx hup)
        have ha : pc.1.isAlpha = true := by
          simp [Char.isAlpha, hup]
        rw [hi, if_neg (by rw [hnd]; exact Bool.false_ne_true), if_pos ha, if_pos hup]
        exact hu i
      · have hnd : pc.1.isDigit = false := by
          cases hx : pc.1.isDigit
          · rfl
          · exact absurd hx (by intro hx; exact not_digit_and_lower pc.1 hx hlo)
        have ha : pc.1.isAlpha = true := by
          simp [Char.isAlpha, hlo]
        have hnup : pc.1.isUpper = false := by
          cases hx : pc.1.isUpper
          · rfl
          · exact absurd hx (by intro hx; exact not_upper_and_lower pc.1 hx hlo)
        rw [hi, if_neg (by rw [hnd]; exact Bool.false_ne_true), if_pos ha,
          if_neg (by rw [hnup]; exact Bool.false_ne_true)]
        exact hl i
      · have hnd : pc.1.isDigit = false := by
          unfold Char.isAlphanum at hna
          rcases Bool.or_eq_false_iff.1 hna with ⟨-, h⟩
          exact h
        have hnalpha : pc.1.isAlpha = false := by
          unfold Char.isAlphanum at hna
          rcases Bool.or_eq_false_iff.1 hna with ⟨h, -⟩
          exact h
        rw [hi, if_neg (by rw [hnd]; exact Bool.false_ne_true),
          if_neg (by rw [hnalpha]; exact Bool.false_ne_true)]
  · rw [hb] at halnum
    cases halnum

theorem ggr_placeholder (r : RandOracle) (orig label : List Char)
    (halnum : strHasAlnum orig = false) :
    generateGenericReplacement r orig label = placeholderFor label := by
  rcases ggr_cases r orig label with ⟨hb, heq⟩ | ⟨h1, hb, heq⟩ |
    ⟨h1, h2, hb, heq⟩ | ⟨h1, h2, hb, heq⟩
  · rw [strIsDigit_hasAlnum orig hb] at halnum
    cases halnum
  · rw [strIsAlpha_hasAlnum orig hb] at halnum
    cases halnum
  · rw [hb] at halnum
    cases halnum
  · exact heq

theorem ggr_ne_nil (r : RandOracle) (orig label : List Char) :
    generateGenericReplacement r orig label ≠ [] := by
  rcases ggr_cases r orig label with ⟨hb, heq⟩ | ⟨h1, hb, heq⟩ |
    ⟨h1, h2, hb, heq⟩ | ⟨h1, h2, hb, heq⟩
  · rw [heq]
    unfold strIsDigit at hb
    rw [Bool.and_eq_true] at hb
    intro hnil
    have := congrArg List.length hnil
    simp at this
    rw [this] at hb
    simp [List.isEmpty] at hb
  · rw [heq]
    unfold strIsAlpha at hb
    rw [Bool.and_eq_true] at hb
    intro hnil
    have := congrArg List.length hnil
    simp [length_withIdx] at this
    rw [this] at hb
    simp [List.isEmpty] at hb
  · rw [heq]
    unfold strHasAlnum at hb
    rw [List.any_eq_true] at hb
    obtain ⟨c, hc, -⟩ := hb
    intro hnil
    have := congrArg List.length hnil
    simp [length_withIdx] at this
    rw [this] at hc
    cases hc
  · rw [heq]
    unfold placeholderFor
    exact List.cons_ne_nil _ _

theorem patternGen_ne_nil (r : RandOracle) (label : List Char) (v : List Char)
    (h : patternGen r label = some v) : v ≠ [] := by
  unfold patternGen at h
  split at h
  · -- email
    cases h
    unfold genEmail
    intro hnil
    rcases List.append_eq_nil.1 hnil with ⟨-, h2⟩
    cases h2
  · split at h
    · -- phone
      cases h
      exact List.cons_ne_nil _ _
    · split at h
      · -- ssn
        cases h
        intro hnil
        rcases List.append_eq_nil.1 hnil with ⟨h1, -⟩
        exact natToDec_ne_nil _ h1
      · split at h
        · -- id
          cases h
          intro hnil
          rcases List.append_eq_nil.1 hnil with ⟨h1, -⟩
          simp [List.range_succ] at h1
        · split at h
          · -- number
            cases h
            exact natToDec_ne_nil _
          · split at h
            · -- code
              cases h
              intro hnil
              have hlen := congrArg List.length hnil
              simp [genCode] at hlen
            · split at h
              · -- username
                cases h
                intro hnil
                rcases List.append_eq_nil.1 hnil with ⟨-, h2⟩
                exact natToDec_ne_nil _ h2
              · cases h

/-- Counterexample to C8 as stated: the entity `{label: phone, text: "5"}`
has alphanumeric text, but `get_replacement` dispatches to the
specialised `_generate_phone` generator, whose result (here under one
concrete random outcome) does not have the same length as the original,
so the structure-preservation part of the claim fails for labels with a
specialised pattern. -/
theorem C8_counterexample :
    strHasAlnum phoneEnt.text = true ∧
      (defaultGetReplacement sampleOracle phoneEnt).length ≠ phoneEnt.text.length := by
  constructor
  · decide
  · decide

/-- C8 (amended): for every entity and every valid random outcome,
`DefaultReplacementStrategy.get_replacement` returns a non-empty string;
when the lower-cased label has NO specialised pattern generator (the
specialised labels are email, phone, ssn, id, number, code, username),
then: if the text contains an alphanumeric character the result has the
same length as the original with digits mapped to digits, letters to
letters of the same case, and every other character unchanged; and if the
text has no alphanumeric character the result is the bracketed
`[<LABEL>_REDACTED]` placeholder with the label upper-cased. -/
theorem C8_default_strategy (r : RandOracle) (e : Entity)
    (hd : ∀ i, (r.pickDigit i).isDigit = true)
    (hu : ∀ i, (r.pickUpper i).isUpper = true)
    (hl : ∀ i, (r.pickLower i).isLower = true) :
    defaultGetReplacement r e ≠ [] ∧
    (patternGen r (pyLower e.label) = none →
      (strHasAlnum e.text = true →
        (defaultGetReplacement r e).length = e.text.length ∧
        ∀ pc ∈ e.text.zip (defaultGetReplacement r e), CharShape pc.1 pc.2) ∧
      (strHasAlnum e.text = false →
        defaultGetReplacement r e = placeholderFor (pyLower e.label))) := by
  constructor
  · cases hpat : patternGen r (pyLower e.label) with
    | some v =>
      have hv : defaultGetReplacement r e = v := by
        unfold defaultGetReplacement
        rw [hpat]
      rw [hv]
      exact patternGen_ne_nil r (pyLower e.label) v hpat
    | none =>
      have hgen : defaultGetReplacement r e
          = generateGenericReplacement r e.text (pyLower e.label) := by
        unfold defaultGetReplacement
        rw [hpat]
      rw [hgen]
      exact ggr_ne_nil r e.text (pyLower e.label)
  · intro hnone
    have hgen : defaultGetReplacement r e
        = generateGenericReplacement r e.text (pyLower e.label) := by
      unfold defaultGetReplacement
      rw [hnone]
    constructor
    · intro halnum
      rw [hgen]
      exact ggr_shape r e.text (pyLower e.label) hd hu hl halnum
    · intro halnum
      rw [hgen]
      exact ggr_placeholder r e.text (pyLower e.label) halnum

/-- Witness for C8 at the sample oracle and a person-labelled entity. -/
theorem C8_witness : defaultGetReplacement sampleOracle genericEnt ≠ [] :=
  (C8_default_strategy sampleOracle genericEnt (fun _ => rfl)
    (fun _ => rfl) (fun _ => rfl)).1

/-! Redactor lemmas. -/

theorem genLoop_spec (used : List (List Char)) (cnt : Nat)
    (hused : ∀ s, s ∈ used ↔ ∃ i, 1 ≤ i ∧ i ≤ cnt ∧ s = natToDec i) :
    ∀ fuel c, 1 ≤ c → c ≤ cnt + 1 → cnt + 2 ≤ c + fuel →
      genLoop used fuel c = cnt + 1 := by
  intro fuel
  induction fuel with
  | zero =>
    intro c h1 h2 h3
    exfalso
    omega
  | succ fuel ih =>
    intro c h1 h2 h3
    unfold genLoop
    by_cases hmem : natToDec c ∈ used
    · rw [if_pos hmem]
      obtain ⟨i, hi1, hi2, hieq⟩ := (hused _).1 hmem
      have hci : c = i := natToDec_injective hieq
      exact ih (c + 1) (by omega) (by omega) (by omega)
    · rw [if_neg hmem]
      by_contra hne
      have hc : c ≤ cnt := by omega
      exact hmem ((hused _).2 ⟨c, h1, hc, rfl⟩)

theorem used_length_ge (used : List (List Char)) (cnt : Nat)
    (hused : ∀ s, s ∈ used ↔ ∃ i, 1 ≤ i ∧ i ≤ cnt ∧ s = natToDec i) :
    cnt ≤ used.length := by
  have hsub : ((List.range cnt).map (fun i => natToDec (i + 1))) ⊆ used := by
    intro s hs
    obtain ⟨i, hi, hieq⟩ := List.mem_map.1 hs
    have hicnt : i < cnt := List.mem_range.1 hi
    exact (hused s).2 ⟨i + 1, by omega, by omega, hieq.symm⟩
  have hinj : Function.Injective (fun i => natToDec (i + 1)) := by
    intro i j h
    have := natToDec_injective h
    omega
  have hnodup : ((List.range cnt).map (fun i => natToDec (i + 1))).Nodup :=
    (List.nodup_range cnt).map hinj
  have hlen := (List.subperm_of_subset hnodup hsub).length_le
  simpa using hlen

theorem generateUniqueId_spec (label : List Char) (u : UsedIds) (cnt : Nat)
    (hused : ∀ s, s ∈ (alookup label u).getD [] ↔
      ∃ i, 1 ≤ i ∧ i ≤ cnt ∧ s = natToDec i) :
    (generateUniqueId label u).1 = natToDec (cnt + 1) ∧
    (∀ s, s ∈ (alookup label (generateUniqueId label u).2).getD [] ↔
      ∃ i, 1 ≤ i ∧ i ≤ cnt + 1 ∧ s = natToDec i) ∧
    (∀ label', label' ≠ label →
      alookup label' (generateUniqueId label u).2 = alookup label' u) := by
  have hlen := used_length_ge _ cnt hused
  have hloop : genLoop ((alookup label u).getD []) (((alookup label u).getD []).length + 1) 1
      = cnt + 1 :=
    genLoop_spec _ cnt hused _ 1 (le_refl 1) (by omega) (by omega)
  refine ⟨?_, ?_, ?_⟩
  · show natToDec (genLoop _ _ 1) = natToDec (cnt + 1)
    rw [hloop]
  · intro s
    show s ∈ (alookup label (aset label _ u)).getD [] ↔ _
    rw [alookup_aset_self]
    show s ∈ natToDec (genLoop _ _ 1) :: (alookup label u).getD [] ↔ _
    rw [hloop, List.mem_cons]
    constructor
    · intro h
      rcases h with h | h
      · exact ⟨cnt + 1, by omega, le_refl _, h⟩
      · obtain ⟨i, hi1, hi2, hieq⟩ := (hused s).1 h
        exact ⟨i, hi1, by omega, hieq⟩
    · intro ⟨i, hi1, hi2, hieq⟩
      by_cases hicnt : i ≤ cnt
      · exact Or.inr ((hused s).2 ⟨i, hi1, hicnt, hieq⟩)
      · left
        rw [hieq]
        congr 1
        omega
  · intro label' hne
    show alookup label' (aset label _ u) = alookup label' u
    exact alookup_aset_ne _ u hne

theorem idxOf'_append_left [DecidableEq α] (a : α) :
    ∀ (l1 l2 : List α), a ∈ l1 → idxOf' a (l1 ++ l2) = idxOf' a l1 := by
  intro l1
  induction l1 with
  | nil => intro l2 h; cases h
  | cons x xs ih =>
    intro l2 h
    rw [List.cons_append]
    by_cases hx : x = a
    · simp only [idxOf', if_pos hx]
    · simp only [idxOf', if_neg hx]
      have hmem : a ∈ xs := by
        rcases List.mem_cons.1 h with h | h
        · exact absurd h.symm hx
        · exact h
      rw [ih l2 hmem]

theorem idxOf'_append_self [DecidableEq α] (a : α) :
    ∀ (l : List α), a ∉ l → idxOf' a (l ++ [a]) = l.length := by
  intro l
  induction l with
  | nil => intro _; simp [idxOf']
  | cons x xs ih =>
    intro h
    have hx : x ≠ a := fun hx => h (hx ▸ List.mem_cons_self _ _)
    rw [List.cons_append]
    simp only [idxOf', if_neg hx, List.length_cons]
    rw [ih (fun hmem => h (List.mem_cons_of_mem _ hmem))]

theorem idxOf'_inj [DecidableEq α] :
    ∀ (l : List α), l.Nodup → ∀ a b, a ∈ l → b ∈ l →
      idxOf' a l = idxOf' b l → a = b := by
  intro l
  induction l with
  | nil => intro _ a b ha; cases ha
  | cons x xs ih =>
    intro hnd a b ha hb heq
    rw [List.nodup_cons] at hnd
    simp only [idxOf'] at heq
    by_cases hxa : x = a
    · by_cases hxb : x = b
      · rw [← hxa, ← hxb]
      · rw [if_pos hxa, if_neg hxb] at heq
        exact absurd heq.symm (by omega)
    · by_cases hxb : x = b
      · rw [if_neg hxa, if_pos hxb] at heq
        exact absurd heq (by omega)
      · rw [if_neg hxa, if_neg hxb] at heq
        have ha' : a ∈ xs := by
          rcases List.mem_cons.1 ha with h | h
          · exact absurd h.symm hxa
          · exact h
        have hb' : b ∈ xs := by
          rcases List.mem_cons.1 hb with h | h
          · exact absurd h.symm hxb
          · exact h
        exact ih hnd.2 a b ha' hb' (by omega)

theorem filter_append_singleton (p : α → Bool) (l : List α) (a : α) :
    (l ++ [a]).filter p = l.filter p ++ (if p a then [a] else []) := by
  rw [List.filter_append]
  congr 1
  by_cases h : p a
  · simp [h]
  · simp [h]

theorem idxSame_append (done : List (List Char × List Char))
    (k k' : List Char × List Char) (h : k' ∈ done) :
    idxSame (done ++ [k]) k' = idxSame done k' := by
  unfold idxSame
  rw [filter_append_singleton]
  have hmem : k' ∈ done.filter (fun x => decide (pyUpper x.1 = pyUpper k'.1)) := by
    rw [List.mem_filter]
    exact ⟨h, by simp⟩
  by_cases hp : pyUpper k.1 = pyUpper k'.1
  · rw [if_pos (by simpa using hp)]
    exact idxOf'_append_left k' _ _ hmem
  · rw [if_neg (by simpa using hp), List.append_nil]

theorem idxSame_append_self (done : List (List Char × List Char))
    (k : List Char × List Char) (h : k ∉ done) :
    idxSame (done ++ [k]) k = cntFor done (pyUpper k.1) := by
  unfold idxSame cntFor
  rw [filter_append_singleton, if_pos (by simp)]
  refine idxOf'_append_self k _ ?_
  intro hmem
  exact h (List.mem_filter.1 hmem).1

theorem cntFor_append (done : List (List Char × List Char))
    (k : List Char × List Char) (L : List Char) :
    cntFor (done ++ [k]) L
      = cntFor done L + (if pyUpper k.1 = L then 1 else 0) := by
  unfold cntFor
  rw [filter_append_singleton, List.length_append]
  congr 1
  by_cases hp : pyUpper k.1 = L
  · rw [if_pos (by simpa using hp), if_pos hp]
    rfl
  · rw [if_neg (by simpa using hp), if_neg hp]
    rfl

theorem newKeys_complete :
    ∀ (todo : List Entity) (done : List (List Char × List Char)),
      ∀ e ∈ todo, keyOf e ∈ done ++ newKeys done todo := by
  intro todo
  induction todo with
  | nil => intro done e he; cases he
  | cons e rest ih =>
    intro done e' he'
    by_cases hkey : keyOf e ∈ done
    · rw [show newKeys done (e :: rest) = newKeys done rest by
        conv_lhs => rw [newKeys]
        rw [if_pos hkey]]
      rcases List.mem_cons.1 he' with he' | he'
      · subst he'
        exact List.mem_append_left _ hkey
      · exact ih done e' he'
    · rw [show newKeys done (e :: rest)
          = keyOf e :: newKeys (done ++ [keyOf e]) rest by
        conv_lhs => rw [newKeys]
        rw [if_neg hkey]]
      rcases List.mem_cons.1 he' with he' | he'
      · subst he'
        exact List.mem_append_right _ (List.mem_cons_self _ _)
      · have := ih (done ++ [keyOf e]) e' he'
        simpa [List.append_assoc] using this

theorem buildMapLoop_spec :
    ∀ (todo : List Entity) (done : List (List Char × List Char))
      (m : List ((List Char × List Char) × List Char)) (u : UsedIds),
      done.Nodup →
      (∀ k, k ∈ done → alookup k m = some (natToDec (idxSame done k + 1))) →
      (∀ k, k ∉ done → alookup k m = none) →
      (∀ L s, s ∈ (alookup L u).getD [] ↔
        ∃ i, 1 ≤ i ∧ i ≤ cntFor done L ∧ s = natToDec i) →
      (done ++ newKeys done todo).Nodup ∧
      (∀ k, k ∈ done ++ newKeys done todo →
        alookup k (buildMapLoop todo m u).1
          = some (natToDec (idxSame (done ++ newKeys done todo) k + 1))) ∧
      (∀ k, k ∉ done ++ newKeys done todo →
        alookup k (buildMapLoop todo m u).1 = none) ∧
      (∀ L s, s ∈ (alookup L (buildMapLoop todo m u).2).getD [] ↔
        ∃ i, 1 ≤ i ∧ i ≤ cntFor (done ++ newKeys done todo) L ∧ s = natToDec i) := by
  intro todo
  induction todo with
  | nil =>
    intro done m u hnd hm1 hm2 hu
    simp only [newKeys, List.append_nil]
    exact ⟨hnd, hm1, hm2, hu⟩
  | cons e rest ih =>
    intro done m u hnd hm1 hm2 hu
    by_cases hkey : keyOf e ∈ done
    · have hlook := hm1 _ hkey
      have hbuild : buildMapLoop (e :: rest) m u = buildMapLoop rest m u := by
        conv_lhs => rw [buildMapLoop]
        rw [hlook]
      have hnew : newKeys done (e :: rest) = newKeys done rest := by
        conv_lhs => rw [newKeys]
        rw [if_pos hkey]
      rw [hbuild, hnew]
      exact ih done m u hnd hm1 hm2 hu
    · have hlook := hm2 _ hkey
      have hbuild : buildMapLoop (e :: rest) m u
          = buildMapLoop rest
              (aset (keyOf e) (generateUniqueId (pyUpper e.label) u).1 m)
              (generateUniqueId (pyUpper e.label) u).2 := by
        conv_lhs => rw [buildMapLoop]
        rw [hlook]
      have hnew : newKeys done (e :: rest)
          = keyOf e :: newKeys (done ++ [keyOf e]) rest := by
        conv_lhs => rw [newKeys]
        rw [if_neg hkey]
      have hupper : pyUpper (keyOf e).1 = pyUpper e.label := rfl
      obtain ⟨hid, hunew, hother⟩ :=
        generateUniqueId_spec (pyUpper e.label) u (cntFor done (pyUpper e.label))
          (hu (pyUpper e.label))
      have hnd' : (done ++ [keyOf e]).Nodup := by
        rw [List.nodup_append]
        exact ⟨hnd, List.nodup_singleton _,
          by simpa [List.disjoint_singleton] using hkey⟩
      have hm1' : ∀ k, k ∈ done ++ [keyOf e] →
          alookup k (aset (keyOf e) (generateUniqueId (pyUpper e.label) u).1 m)
            = some (natToDec (idxSame (done ++ [keyOf e]) k + 1)) := by
        intro k hk
        rcases List.mem_append.1 hk with hk | hk
        · have hne : k ≠ keyOf e := by
            intro hkeq
            exact hkey (hkeq ▸ hk)
          rw [alookup_aset_ne _ _ hne, hm1 k hk, idxSame_append done (keyOf e) k hk]
        · have hkeq : k = keyOf e := by simpa using hk
          subst hkeq
          rw [alookup_aset_self, hid, idxSame_append_self done (keyOf e) hkey, hupper]
      have hm2' : ∀ k, k ∉ done ++ [keyOf e] →
          alookup k (aset (keyOf e) (generateUniqueId (pyUpper e.label) u).1 m)
            = none := by
        intro k hk
        rw [List.mem_append] at hk
        push_neg at hk
        have hne : k ≠ keyOf e := by
          intro hkeq
          exact hk.2 (by simp [hkeq])
        rw [alookup_aset_ne _ _ hne]
        exact hm2 k hk.1
      have hu' : ∀ L s,
          s ∈ (alookup L (generateUniqueId (pyUpper e.label) u).2).getD [] ↔
            ∃ i, 1 ≤ i ∧ i ≤ cntFor (done ++ [keyOf e]) L ∧ s = natToDec i := by
        intro L s
        by_cases hL : L = pyUpper e.label
        · subst hL
          rw [cntFor_append, hupper, if_pos rfl]
          exact hunew s
        · rw [hother L hL, cntFor_append, hupper, if_neg (fun hx => hL hx.symm),
            Nat.add_zero]
          exact hu L s
      have hres := ih (done ++ [keyOf e])
        (aset (keyOf e) (generateUniqueId (pyUpper e.label) u).1 m)
        (generateUniqueId (pyUpper e.label) u).2 hnd' hm1' hm2' hu'
      rw [hbuild, hnew]
      have happ : done ++ keyOf e :: newKeys (done ++ [keyOf e]) rest
          = (done ++ [keyOf e]) ++ newKeys (done ++ [keyOf e]) rest := by
        simp
      rw [happ]
      exact hres

theorem redactStep_consistent (fmt : List FmtPiece)
    (m : List ((List Char × List Char) × List Char)) (acc : RedactAccum)
    (e : Entity) (rid : List Char)
    (hlook : alookup (keyOf e) m = some rid) :
    redactStep fmt true true m acc e =
      { text := acc.text.take e.start
          ++ renderFmt fmt rid (pyUpper e.label) ++ acc.text.drop e.stop
        details := acc.details ++
          [⟨pyUpper e.label, e.text, renderFmt fmt rid (pyUpper e.label),
            e.start, e.stop, e.score, rid⟩]
        reIdMap := aset (renderFmt fmt rid (pyUpper e.label)) e.text acc.reIdMap
        used := acc.used } := by
  unfold redactStep
  rw [hlook]
  rfl

theorem redact_foldl_details (fmt : List FmtPiece)
    (m : List ((List Char × List Char) × List Char)) :
    ∀ (es : List Entity) (acc : RedactAccum),
      (∀ e ∈ es, ∃ rid, alookup (keyOf e) m = some rid) →
      ∀ d, d ∈ (es.foldl (redactStep fmt true true m) acc).details ↔
        (d ∈ acc.details ∨ ∃ e ∈ es, ∃ rid, alookup (keyOf e) m = some rid ∧
          d = ⟨pyUpper e.label, e.text, renderFmt fmt rid (pyUpper e.label),
               e.start, e.stop, e.score, rid⟩) := by
  intro es
  induction es with
  | nil =>
    intro acc _ d
    simp
  | cons e rest ih =>
    intro acc hall d
    obtain ⟨rid, hrid⟩ := hall e (List.mem_cons_self _ _)
    rw [List.foldl_cons, redactStep_consistent fmt m acc e rid hrid,
      ih _ (fun e' he' => hall e' (List.mem_cons_of_mem _ he'))]
    simp only [List.mem_append, List.mem_singleton, List.mem_cons,
      List.not_mem_nil, or_false]
    constructor
    · rintro ((hd | hd) | ⟨e', he', rid', h1, h2⟩)
      · exact Or.inl hd
      · exact Or.inr ⟨e, Or.inl rfl, rid, hrid, hd⟩
      · exact Or.inr ⟨e', Or.inr he', rid', h1, h2⟩
    · rintro (hd | ⟨e', he', rid', h1, h2⟩)
      · exact Or.inl (Or.inl hd)
      · rcases he' with he' | he'
        · subst he'
          have hrr : rid' = rid := by
            rw [h1] at hrid
            exact Option.some.inj hrid
          subst hrr
          exact Or.inl (Or.inr h2)
        · exact Or.inr ⟨e', he', rid', h1, h2⟩

/-- C2: redaction id stability on a fresh instance.  Let
`m := _build_entity_id_map(entities)` (as `redact` computes it with
`numbered` and `consistent_ids` on, starting from empty used-id sets) and
let `ks := newKeys [] entities` be the distinct `(label, text)` keys in
first-occurrence order.  Then: (1) every entity's key is mapped to the
decimal id `rank + 1`, where `rank` is the key's position among the
distinct keys sharing its upper-cased label — so for each label ids are
exactly 1, 2, 3, ... in first-occurrence order, i.e. each id is the
smallest positive integer not yet used for that label; (2) two entities
with identical `(label, text)` receive the identical id; (3) two entities
sharing a label with different texts receive strictly distinct ids; and
(4) the details of `redact(text, entities, numbered=True,
consistent_ids=True)` on a fresh instance are exactly one detail per
entity, carrying that entity's mapped id as `redaction_id`. -/
theorem C2_redaction_id_stability (text : List Char) (entities : List Entity)
    (fmt : List FmtPiece) :
    (∀ e ∈ entities, alookup (keyOf e) (buildMapLoop entities [] []).1
        = some (natToDec (idxSame (newKeys [] entities) (keyOf e) + 1))) ∧
    (∀ e1 ∈ entities, ∀ e2 ∈ entities, keyOf e1 = keyOf e2 →
      alookup (keyOf e1) (buildMapLoop entities [] []).1
        = alookup (keyOf e2) (buildMapLoop entities [] []).1) ∧
    (∀ e1 ∈ entities, ∀ e2 ∈ entities, e1.label = e2.label → e1.text ≠ e2.text →
      ∀ i1 i2, alookup (keyOf e1) (buildMapLoop entities [] []).1 = some i1 →
        alookup (keyOf e2) (buildMapLoop entities [] []).1 = some i2 → i1 ≠ i2) ∧
    (∀ d, d ∈ (redact freshRedactor text entities true fmt true).1.replacements ↔
      ∃ e ∈ entities, ∃ rid,
        alookup (keyOf e) (buildMapLoop entities [] []).1 = some rid ∧
        d = ⟨pyUpper e.label, e.text, renderFmt fmt rid (pyUpper e.label),
             e.start, e.stop, e.score, rid⟩) := by
  have hbase := buildMapLoop_spec entities [] [] []
    List.nodup_nil
    (fun k hk => absurd hk (List.not_mem_nil k))
    (fun k _ => rfl)
    (fun L s => by
      constructor
      · intro h; cases h
      · rintro ⟨i, h1, h2, -⟩
        simp [cntFor] at h2
        omega)
  rw [List.nil_append] at hbase
  obtain ⟨hnodup, hmap, hnone, -⟩ := hbase
  have htotal : ∀ e ∈ entities, alookup (keyOf e) (buildMapLoop entities [] []).1
      = some (natToDec (idxSame (newKeys [] entities) (keyOf e) + 1)) := by
    intro e he
    have hk : keyOf e ∈ newKeys [] entities := by
      have := newKeys_complete entities [] e he
      simpa using this
    exact hmap (keyOf e) hk
  refine ⟨htotal, ?_, ?_, ?_⟩
  · intro e1 _ e2 _ hkeq
    rw [hkeq]
  · intro e1 he1 e2 he2 hlab htext i1 i2 h1 h2
    have hk1 : keyOf e1 ∈ newKeys [] entities := by
      have := newKeys_complete entities [] e1 he1
      simpa using this
    have hk2 : keyOf e2 ∈ newKeys [] entities := by
      have := newKeys_complete entities [] e2 he2
      simpa using this
    have hkne : keyOf e1 ≠ keyOf e2 := by
      intro hx
      unfold keyOf at hx
      exact htext (congrArg Prod.snd hx)
    rw [htotal e1 he1] at h1
    rw [htotal e2 he2] at h2
    have hi1 := Option.some.inj h1
    have hi2 := Option.some.inj h2
    rw [← hi1, ← hi2]
    intro hcontra
    have hidx := natToDec_injective hcontra
    have hsame : idxSame (newKeys [] entities) (keyOf e1)
        = idxSame (newKeys [] entities) (keyOf e2) := by omega
    unfold idxSame at hsame
    have hlabeq : pyUpper (keyOf e1).1 = pyUpper (keyOf e2).1 := by
      show pyUpper e1.label = pyUpper e2.label
      rw [hlab]
    rw [hlabeq] at hsame
    have hfnodup : ((newKeys [] entities).filter
        (fun k' => decide (pyUpper k'.1 = pyUpper (keyOf e2).1))).Nodup :=
      hnodup.filter _
    have hf1 : keyOf e1 ∈ (newKeys [] entities).filter
        (fun k' => decide (pyUpper k'.1 = pyUpper (keyOf e2).1)) := by
      rw [List.mem_filter]
      exact ⟨hk1, by simpa using hlabeq⟩
    have hf2 : keyOf e2 ∈ (newKeys [] entities).filter
        (fun k' => decide (pyUpper k'.1 = pyUpper (keyOf e2).1)) := by
      rw [List.mem_filter]
      exact ⟨hk2, by simp⟩
    exact hkne (idxOf'_inj _ hfnodup _ _ hf1 hf2 hsame)
  · intro d
    by_cases hne : entities = []
    · subst hne
      simp only [redact, if_pos rfl]
      constructor
      · intro h; cases h
      · rintro ⟨e, he, -⟩; cases he
    · have hred : (redact freshRedactor text entities true fmt true).1.replacements
          = pySorted (fun a b => a.start ≤ b.start)
              ((pySorted (fun a b => b.start ≤ a.start) entities).foldl
                (redactStep fmt true true (buildMapLoop entities [] []).1)
                ⟨text, [], [], (buildMapLoop entities [] []).2⟩).details := by
        simp only [redact, if_neg hne]
        rfl
      rw [hred, mem_pySorted]
      rw [redact_foldl_details fmt (buildMapLoop entities [] []).1 _ _
        (fun e he => ⟨natToDec (idxSame (newKeys [] entities) (keyOf e) + 1),
          htotal e ((mem_pySorted _ _ _).1 he)⟩)]
      simp only [List.not_mem_nil, false_or]
      constructor
      · rintro ⟨e, he, rid, h1, h2⟩
        exact ⟨e, (mem_pySorted _ _ _).1 he, rid, h1, h2⟩
      · rintro ⟨e, he, rid, h1, h2⟩
        exact ⟨e, (mem_pySorted _ _ _).2 he, rid, h1, h2⟩

/-- Witness for C2: the two identical `John` entities of `idEntities`
receive id "1", the distinct `Jane` entity sharing the label receives a
different id. -/
theorem C2_witness :
    alookup (keyOf johnEnt) (buildMapLoop idEntities [] []).1
      = alookup (keyOf johnEnt2) (buildMapLoop idEntities [] []).1 ∧
    (∀ i1 i2, alookup (keyOf johnEnt) (buildMapLoop idEntities [] []).1 = some i1 →
      alookup (keyOf janeEnt) (buildMapLoop idEntities [] []).1 = some i2 →
      i1 ≠ i2) :=
  ⟨(C2_redaction_id_stability idText idEntities defaultFormat).2.1 johnEnt
      (by decide) johnEnt2 (by decide) (by decide),
   (C2_redaction_id_stability idText idEntities defaultFormat).2.2.1 johnEnt
      (by decide) janeEnt (by decide) (by decide) (by decide)⟩

/-- C1 (code bug): batch redaction is NOT consistent across a document
set.  `batch_redact` pre-generates a global id for each distinct
`(label, text)` key (burning id 1 here) and stores the global map in
`self.entity_id_map`, but `redact` never reads `self.entity_id_map` — it
rebuilds a fresh map per text via `_build_entity_id_map`, which allocates
NEW ids from the shared used-id sets.  On the batch
`["John", "John"]` with the same person entity in both texts, the two
occurrences of the identical `(person, John)` entity receive the distinct
ids "2" and "3", contradicting both the claim and `batch_redact`'s own
docstring ("maintaining ID consistency across all texts"). -/
theorem C1_batch_inconsistency :
    (batchRedact freshRedactor [johnText, johnText] [[johnEnt], [johnEnt]]
        true defaultFormat true).map
      (fun p => p.1.map fun r => r.replacements.map (fun d => d.redaction_id))
      = some [[natToDec 2], [natToDec 3]] ∧ natToDec 2 ≠ natToDec 3 := by
  constructor
  · decide
  · decide

/-! Replacer lemmas. -/

theorem getReplacementCore_spec {σ : Type} (tbl : StrategyTable σ)
    (custom : Option (List Char)) (label : List Char) (e : Entity)
    (cache : ReplCache) (s : σ)
    (hmiss : alookup (label, e.text) cache = none) :
    (∀ k v, alookup k cache = some v →
      alookup k (getReplacementCore tbl true custom label e cache s).2.1 = some v) ∧
    ((getReplacementCore tbl true custom label e cache s).1.1 ≠ e.text →
      ∃ stn, alookup (label, e.text)
          (getReplacementCore tbl true custom label e cache s).2.1
        = some ((getReplacementCore tbl true custom label e cache s).1.1, stn)) := by
  rcases htry : tryStrategies tbl label e
      (match custom with | some n => [n] | none => strategyMapping label) s
    with ⟨ores, s'⟩
  cases ores with
  | some rn =>
    obtain ⟨r, name⟩ := rn
    have hcore : getReplacementCore tbl true custom label e cache s
        = ((r, name), aset (label, e.text) (r, name) cache, s') := by
      simp only [getReplacementCore]
      rw [htry]
      rfl
    rw [hcore]
    constructor
    · intro k v hk
      have hne : k ≠ (label, e.text) := by
        intro hkeq
        rw [hkeq, hmiss] at hk
        cases hk
      rw [alookup_aset_ne _ _ hne]
      exact hk
    · intro _
      exact ⟨name, alookup_aset_self _ _ _⟩
  | none =>
    rcases hdef : tbl.dflt.get_replacement e s' with ⟨odef, s''⟩
    cases odef with
    | some r =>
      have h1 : getReplacementCore tbl true custom label e cache s
          = (match tbl.dflt.get_replacement e s' with
             | (some r, s'') => ((r, "default".toList),
                 aset (label, e.text) (r, "default".toList) cache, s'')
             | (none, s'') => ((e.text, "none".toList), cache, s'')) := by
        simp only [getReplacementCore]
        rw [htry]
        rfl
      have hcore : getReplacementCore tbl true custom label e cache s
          = ((r, "default".toList),
             aset (label, e.text) (r, "default".toList) cache, s'') := by
        rw [h1, hdef]
      rw [hcore]
      constructor
      · intro k v hk
        have hne : k ≠ (label, e.text) := by
          intro hkeq
          rw [hkeq, hmiss] at hk
          cases hk
        rw [alookup_aset_ne _ _ hne]
        exact hk
      · intro _
        exact ⟨"default".toList, alookup_aset_self _ _ _⟩
    | none =>
      have h1 : getReplacementCore tbl true custom label e cache s
          = (match tbl.dflt.get_replacement e s' with
             | (some r, s'') => ((r, "default".toList),
                 aset (label, e.text) (r, "default".toList) cache, s'')
             | (none, s'') => ((e.text, "none".toList), cache, s'')) := by
        simp only [getReplacementCore]
        rw [htry]
        rfl
      have hcore : getReplacementCore tbl true custom label e cache s
          = ((e.text, "none".toList), cache, s'') := by
        rw [h1, hdef]
      rw [hcore]
      constructor
      · intro k v hk
        exact hk
      · intro hne
        exact absurd rfl hne

theorem getReplacement_spec {σ : Type} (tbl : StrategyTable σ)
    (custom : Option (List Char)) (e : Entity) (cache : ReplCache) (s : σ) :
    (∀ k v, alookup k cache = some v →
      alookup k (getReplacement tbl true custom e cache s).2.1 = some v) ∧
    ((getReplacement tbl true custom e cache s).1.1 ≠ e.text →
      ∃ stn, alookup (pyLower e.label, e.text)
          (getReplacement tbl true custom e cache s).2.1
        = some ((getReplacement tbl true custom e cache s).1.1, stn)) := by
  cases hhit : alookup (pyLower e.label, e.text) cache with
  | some rv =>
    have hrepl : getReplacement tbl true custom e cache s
        = ((rv.1, rv.2 ++ "_cached".toList), cache, s) := by
      simp only [getReplacement]
      rw [hhit]
      rfl
    rw [hrepl]
    exact ⟨fun k v hk => hk, fun _ => ⟨rv.2, by rw [hhit]⟩⟩
  | none =>
    have hrepl : getReplacement tbl true custom e cache s
        = getReplacementCore tbl true custom (pyLower e.label) e cache s := by
      simp only [getReplacement]
      rw [hhit]
      rfl
    rw [hrepl]
    exact getReplacementCore_spec tbl custom (pyLower e.label) e cache s hhit

theorem replaceStep_inv {σ : Type} (tbl : StrategyTable σ)
    (customMap : List (List Char × List Char)) (st : ReplaceAccum σ) (e : Entity)
    (hinv : ∀ d ∈ st.details, ∃ stn, alookup (d.label, d.original) st.cache
      = some (d.replacement, stn)) :
    ∀ d ∈ (replaceStep tbl true customMap st e).details,
      ∃ stn, alookup (d.label, d.original) (replaceStep tbl true customMap st e).cache
        = some (d.replacement, stn) := by
  obtain ⟨hmono, hrec⟩ :=
    getReplacement_spec tbl (alookup (pyLower e.label) customMap) e st.cache st.rng
  by_cases hcond :
      (getReplacement tbl true (alookup (pyLower e.label) customMap) e
        st.cache st.rng).1.1 ≠ [] ∧
      (getReplacement tbl true (alookup (pyLower e.label) customMap) e
        st.cache st.rng).1.1 ≠ e.text
  · have hstep : replaceStep tbl true customMap st e =
        { text := st.text.take e.start
            ++ (getReplacement tbl true (alookup (pyLower e.label) customMap) e
                st.cache st.rng).1.1 ++ st.text.drop e.stop
          details := st.details ++
            [⟨pyLower e.label, e.text,
              (getReplacement tbl true (alookup (pyLower e.label) customMap) e
                st.cache st.rng).1.1, e.start, e.stop, e.score,
              (getReplacement tbl true (alookup (pyLower e.label) customMap) e
                st.cache st.rng).1.2⟩]
          rmap := aset e.text
            (getReplacement tbl true (alookup (pyLower e.label) customMap) e
              st.cache st.rng).1.1 st.rmap
          cache := (getReplacement tbl true (alookup (pyLower e.label) customMap) e
            st.cache st.rng).2.1
          rng := (getReplacement tbl true (alookup (pyLower e.label) customMap) e
            st.cache st.rng).2.2 } := by
      simp only [replaceStep]
      rw [if_pos hcond]
    rw [hstep]
    intro d hd
    rcases List.mem_append.1 hd with hd | hd
    · obtain ⟨stn, hstn⟩ := hinv d hd
      exact ⟨stn, hmono _ _ hstn⟩
    · have hdeq := List.mem_singleton.1 hd
      subst hdeq
      exact hrec hcond.2
  · have hstep : replaceStep tbl true customMap st e =
        { st with
          cache := (getReplacement tbl true (alookup (pyLower e.label) customMap) e
            st.cache st.rng).2.1
          rng := (getReplacement tbl true (alookup (pyLower e.label) customMap) e
            st.cache st.rng).2.2 } := by
      simp only [replaceStep]
      rw [if_neg hcond]
    rw [hstep]
    intro d hd
    obtain ⟨stn, hstn⟩ := hinv d hd
    exact ⟨stn, hmono _ _ hstn⟩

theorem replace_foldl_inv {σ : Type} (tbl : StrategyTable σ)
    (customMap : List (List Char × List Char)) :
    ∀ (es : List Entity) (st : ReplaceAccum σ),
      (∀ d ∈ st.details, ∃ stn, alookup (d.label, d.original) st.cache
        = some (d.replacement, stn)) →
      ∀ d ∈ (es.foldl (replaceStep tbl true customMap) st).details,
        ∃ stn, alookup (d.label, d.original)
            (es.foldl (replaceStep tbl true customMap) st).cache
          = some (d.replacement, stn) := by
  intro es
  induction es with
  | nil => intro st hinv; exact hinv
  | cons e rest ih =>
    intro st hinv
    rw [List.foldl_cons]
    exact ih _ (replaceStep_inv tbl customMap st e hinv)

/-- C6: replacement consistency.  For every strategy table (hence for any
behaviour of the Faker/country/date/default strategy objects, including
any randomness), any initial consistency-cache contents and any entity
list, within one call of `EntityReplacer.replace` with consistency
enabled, any two recorded replacement details whose (lower-cased label,
original text) pairs are equal carry the identical replacement value. -/
theorem C6_replacement_consistency (σ : Type) (tbl : StrategyTable σ)
    (cache0 : ReplCache) (rng0 : σ) (text : List Char) (entities : List Entity)
    (customMap : List (List Char × List Char)) :
    ∀ d1 ∈ (replace tbl cache0 rng0 text entities true customMap).replacements,
    ∀ d2 ∈ (replace tbl cache0 rng0 text entities true customMap).replacements,
      d1.label = d2.label → d1.original = d2.original →
      d1.replacement = d2.replacement := by
  intro d1 h1 d2 h2 hlab horig
  by_cases hne : entities = []
  · subst hne
    simp only [replace, if_pos rfl] at h1
    cases h1
  · have hrepl : (replace tbl cache0 rng0 text entities true customMap).replacements
        = pySorted (fun a b => a.start ≤ b.start)
            ((pySorted (fun a b => b.start ≤ a.start) entities).foldl
              (replaceStep tbl true customMap)
              ⟨text, [], [], cache0, rng0⟩).details := by
      simp only [replace, if_neg hne]
    rw [hrepl, mem_pySorted] at h1 h2
    have hinv := replace_foldl_inv tbl customMap
      (pySorted (fun a b => b.start ≤ a.start) entities)
      ⟨text, [], [], cache0, rng0⟩
      (fun d hd => absurd hd (List.not_mem_nil d))
    obtain ⟨stn1, hstn1⟩ := hinv d1 h1
    obtain ⟨stn2, hstn2⟩ := hinv d2 h2
    rw [hlab, horig] at hstn1
    rw [hstn1] at hstn2
    have hpair := congrArg Prod.fst (Option.some.inj hstn2)
    simpa using hpair

/-- Witness for C6: the two `John` person entities (labels differing only
in case) both receive the replacement `Xx` in the sample run. -/
theorem C6_witness :
    (⟨"person".toList, "John".toList, "Xx".toList, 0, 4, 1,
      "faker_cached".toList⟩ : ReplacementDetail).replacement
      = (⟨"person".toList, "John".toList, "Xx".toList, 11, 15, 1,
          "faker".toList⟩ : ReplacementDetail).replacement :=
  C6_replacement_consistency Unit sampleTable [] () idText replEntities []
    ⟨"person".toList, "John".toList, "Xx".toList, 0, 4, 1, "faker_cached".toList⟩
    (by decide)
    ⟨"person".toList, "John".toList, "Xx".toList, 11, 15, 1, "faker".toList⟩
    (by decide) (by decide) (by decide)

theorem replaceStep_applied {σ : Type} (tbl : StrategyTable σ)
    (consistency : Bool) (customMap : List (List Char × List Char))
    (st : ReplaceAccum σ) (e : Entity)
    (hinv : ∀ d ∈ st.details, d.replacement ≠ [] ∧ d.replacement ≠ d.original) :
    ∀ d ∈ (replaceStep tbl consistency customMap st e).details,
      d.replacement ≠ [] ∧ d.replacement ≠ d.original := by
  by_cases hcond :
      (getReplacement tbl consistency (alookup (pyLower e.label) customMap) e
        st.cache st.rng).1.1 ≠ [] ∧
      (getReplacement tbl consistency (alookup (pyLower e.label) customMap) e
        st.cache st.rng).1.1 ≠ e.text
  · have hstep : (replaceStep tbl consistency customMap st e).details
        = st.details ++
          [⟨pyLower e.label, e.text,
            (getReplacement tbl consistency (alookup (pyLower e.label) customMap) e
              st.cache st.rng).1.1, e.start, e.stop, e.score,
            (getReplacement tbl consistency (alookup (pyLower e.label) customMap) e
              st.cache st.rng).1.2⟩] := by
      simp only [replaceStep]
      rw [if_pos hcond]
    rw [hstep]
    intro d hd
    rcases List.mem_append.1 hd with hd | hd
    · exact hinv d hd
    · have hdeq := List.mem_singleton.1 hd
      subst hdeq
      exact hcond
  · have hstep : (replaceStep tbl consistency customMap st e).details
        = st.details := by
      simp only [replaceStep]
      rw [if_neg hcond]
    rw [hstep]
    exact hinv

theorem replace_foldl_applied {σ : Type} (tbl : StrategyTable σ)
    (consistency : Bool) (customMap : List (List Char × List Char)) :
    ∀ (es : List Entity) (st : ReplaceAccum σ),
      (∀ d ∈ st.details, d.replacement ≠ [] ∧ d.replacement ≠ d.original) →
      ∀ d ∈ (es.foldl (replaceStep tbl consistency customMap) st).details,
        d.replacement ≠ [] ∧ d.replacement ≠ d.original := by
  intro es
  induction es with
  | nil => intro st hinv; exact hinv
  | cons e rest ih =>
    intro st hinv
    rw [List.foldl_cons]
    exact ih _ (replaceStep_applied tbl consistency customMap st e hinv)

/-- C10 (implicit): in `EntityReplacer.replace`, a span whose computed
replacement is empty or equal to its original text is left untouched:
(1) every recorded detail has a non-empty replacement different from its
original; (2) when the computed replacement is empty or equals the
original, the loop step leaves the working text, the recorded details and
the replacement map unchanged (so the original substring is still at its
position in the working text); and (3) on a concrete run where the
default strategy's random letter coincides with the original,
`replacements_applied` (0) is smaller than `entities_processed` (1) and
the output text equals the input. -/
theorem C10_skipped_replacements :
    (∀ (σ : Type) (tbl : StrategyTable σ) (cache0 : ReplCache) (rng0 : σ)
        (text : List Char) (entities : List Entity) (consistency : Bool)
        (customMap : List (List Char × List Char)),
      ∀ d ∈ (replace tbl cache0 rng0 text entities consistency customMap).replacements,
        d.replacement ≠ [] ∧ d.replacement ≠ d.original) ∧
    (∀ (σ : Type) (tbl : StrategyTable σ) (consistency : Bool)
        (customMap : List (List Char × List Char)) (st : ReplaceAccum σ) (e : Entity),
      ((getReplacement tbl consistency (alookup (pyLower e.label) customMap) e
          st.cache st.rng).1.1 = [] ∨
       (getReplacement tbl consistency (alookup (pyLower e.label) customMap) e
          st.cache st.rng).1.1 = e.text) →
      (replaceStep tbl consistency customMap st e).text = st.text ∧
      (replaceStep tbl consistency customMap st e).details = st.details ∧
      (replaceStep tbl consistency customMap st e).rmap = st.rmap) ∧
    ((replace noFakerTable [] () tinyText [tinyEnt] true []).entities_processed = 1 ∧
     (replace noFakerTable [] () tinyText [tinyEnt] true []).replacements_applied = 0 ∧
     (replace noFakerTable [] () tinyText [tinyEnt] true []).anonymized_text
       = tinyText) := by
  refine ⟨?_, ?_, ?_⟩
  · intro σ tbl cache0 rng0 text entities consistency customMap d hd
    by_cases hne : entities = []
    · subst hne
      simp only [replace, if_pos rfl] at hd
      cases hd
    · have hrepl : (replace tbl cache0 rng0 text entities consistency
          customMap).replacements
          = pySorted (fun a b => a.start ≤ b.start)
              ((pySorted (fun a b => b.start ≤ a.start) entities).foldl
                (replaceStep tbl consistency customMap)
                ⟨text, [], [], cache0, rng0⟩).details := by
        simp only [replace, if_neg hne]
      rw [hrepl, mem_pySorted] at hd
      exact replace_foldl_applied tbl consistency customMap _ _
        (fun d' hd' => absurd hd' (List.not_mem_nil d')) d hd
  · intro σ tbl consistency customMap st e hskip
    have hcond : ¬((getReplacement tbl consistency
          (alookup (pyLower e.label) customMap) e st.cache st.rng).1.1 ≠ [] ∧
        (getReplacement tbl consistency
          (alookup (pyLower e.label) customMap) e st.cache st.rng).1.1 ≠ e.text) := by
      rcases hskip with h | h
      · intro hx; exact hx.1 h
      · intro hx; exact hx.2 h
    have hstep : replaceStep tbl consistency customMap st e =
        { st with
          cache := (getReplacement tbl consistency
            (alookup (pyLower e.label) customMap) e st.cache st.rng).2.1
          rng := (getReplacement tbl consistency
            (alookup (pyLower e.label) customMap) e st.cache st.rng).2.2 } := by
      simp only [replaceStep]
      rw [if_neg hcond]
    rw [hstep]
    exact ⟨rfl, rfl, rfl⟩
  · refine ⟨?_, ?_, ?_⟩
    · decide
    · decide
    · decide

/-- Witness for C10 at the sample run of C6: the recorded detail's
replacement is non-empty and differs from the original. -/
theorem C10_witness :
    (⟨"person".toList, "John".toList, "Xx".toList, 0, 4, 1,
      "faker_cached".toList⟩ : ReplacementDetail).replacement ≠ [] ∧
    (⟨"person".toList, "John".toList, "Xx".toList, 0, 4, 1,
      "faker_cached".toList⟩ : ReplacementDetail).replacement
      ≠ (⟨"person".toList, "John".toList, "Xx".toList, 0, 4, 1,
          "faker_cached".toList⟩ : ReplacementDetail).original :=
  C10_skipped_replacements.1 Unit sampleTable [] () idText replEntities true []
    ⟨"person".toList, "John".toList, "Xx".toList, 0, 4, 1, "faker_cached".toList⟩
    (by decide)

end Cloak
